import Mathlib

/-!
Formal model of `myHeap.c`, a user-space heap allocator with a best-fit
placement policy and delayed coalescing.

The arena is modelled as a total map from byte offsets (relative to
`heapStart`) to the C `int` stored at that 4-byte-aligned address.  All C
`/` and `%` on `int` are translated as `Int.tdiv` / `Int.tmod` (truncated
division, the C semantics); the single `unsigned` modulus in `myFree` is
translated as `Int.emod`.  Bitwise `&` is `Int.land`.  The values
appearing in the states considered stay far below 2^31, so `Int` stands in
for C `int` with no wraparound.

The loops of `myAlloc` (the best-fit scan) and of `coalesce` are modelled
with an explicit fuel argument; `none` means the loop has not terminated
within the given fuel, which matches a diverging C loop when no fuel
suffices.
-/

set_option linter.unusedVariables false

/-- Raw memory together with the two globals of myHeap.c: `base` is the
absolute address of `heapStart` (= mmap base + 4, see myHeap.c:304) and
`allocsize` the usable arena size (myHeap.c:57, after the `-= 8` at line
300).  `mem j` is the `int` stored at byte offset `j` from `heapStart`. -/
structure Heap where
  mem : Int → Int
  base : Int
  allocsize : Int

/-- Store `v` at offset `i` of a raw memory. -/
def wr (m : Int → Int) (i v : Int) : Int → Int :=
  fun j => if j = i then v else m j

/-- Store `v` at offset `i` of the heap. -/
def wrH (h : Heap) (i v : Int) : Heap :=
  { h with mem := wr h.mem i v }

/-- State of the heap right after a successful `myInit` (myHeap.c:299-319).
`a` is the usable arena size (the mmap'd size minus 8 for double-word
alignment and the end mark) and `base` the absolute address of `heapStart`;
the OS-facing half of `myInit` (page rounding, `mmap` of a zero-filled
region) fixes these two values.  The writes, in source order: end mark `1`
at offset `a` (line 308), header `a + 2` at offset 0 (lines 311/315),
footer `a` at offset `a - 4` (lines 318-319). -/
def myInit (a base : Int) : Heap :=
  { mem := wr (wr (wr (fun _ => 0) a 1) 0 (a + 2)) (a - 4) a
    base := base
    allocsize := a }

/-- The rounded block size of `myAlloc` (myHeap.c:109-112): header size 4
plus payload, padded up to a multiple of 8. -/
def roundedSize (size : Int) : Int :=
  let s := 4 + size
  if s.tmod 8 ≠ 0 then s + (8 - s.tmod 8) else s

/-- The scan state of `myAlloc`'s best-fit loop: the local variables
`memoryAvailable`, `block` (as a byte offset from `heapStart`; the C `NULL`
initial value is represented by offset 0 together with
`memoryAvailable = -1`, and the pointer is never consulted in that case)
and `previousBlock` (myHeap.c:100-105). -/
structure ScanSt where
  memoryAvailable : Int
  block : Int
  previousBlock : Int
deriving DecidableEq

/-- One-to-one translation of `myAlloc`'s scan loop (myHeap.c:116-138).
`traverse` is the current byte offset; the result is `none` when `fuel`
iterations do not reach the end mark. -/
def scanLoop (h : Heap) (size : Int) : Nat → Int → ScanSt → Option ScanSt
  | 0, _, _ => none
  | fuel + 1, traverse, st =>
    if h.mem traverse = 1 then some st
    else
      let blockSize := h.mem traverse
      let t1 := if Int.land blockSize 1 ≠ 0 then blockSize - 1 else blockSize
      let trueSize := if Int.land blockSize 2 ≠ 0 then t1 - 2 else t1
      let st' :=
        if blockSize.tmod 2 = 0 ∧ size ≤ trueSize ∧
            (st.memoryAvailable = -1 ∨ trueSize < st.memoryAvailable) then
          { memoryAvailable := trueSize
            block := traverse
            previousBlock := if Int.land blockSize 2 ≠ 0 then 2 else 0 }
        else st
      scanLoop h size fuel (traverse + trueSize) st'

/-- One-to-one translation of `myAlloc` (myHeap.c:99-157).  The result is
`none` when the scan loop diverges; otherwise `some (r, h')` where `r` is
the returned payload address (`none` for C `NULL`) and `h'` the heap after
the call. -/
def myAlloc (fuel : Nat) (h : Heap) (size : Int) : Option (Option Int × Heap) :=
  if size ≤ 0 then some (none, h)
  else
    let s := roundedSize size
    if h.allocsize < s then some (none, h)
    else
      match scanLoop h s fuel 0 ⟨-1, 0, 0⟩ with
      | none => none
      | some st =>
        if s < st.memoryAvailable then
          -- split case (myHeap.c:139-146)
          let h1 := wrH h st.block (s + st.previousBlock + 1)
          let sp := st.block + s
          if h1.mem sp = 1 then some (some (h.base + st.block + 4), h1)
          else some (some (h.base + st.block + 4),
                     wrH h1 sp (st.memoryAvailable - s + 2))
        else if st.memoryAvailable = s then
          -- exact-fit case (myHeap.c:147-155)
          let h1 := wrH h st.block (h.mem st.block + 1)
          let sp := st.block + s
          if h1.mem sp = 1 then some (some (h.base + st.block + 4), h1)
          else some (some (h.base + st.block + 4), wrH h1 sp (h1.mem sp + 2))
        else some (none, h)

/-- One-to-one translation of `myFree` (myHeap.c:171-197).  `ptr` is an
absolute address (`0` is C `NULL`).  Returns the C return value together
with the heap after the call.  The `(unsigned int)ptr % 8` of line 175 is
the nonnegative remainder, hence `Int.emod`. -/
def myFree (h : Heap) (ptr : Int) : Int × Heap :=
  if ptr = 0 then (-1, h)
  else if ptr % 8 ≠ 0 then (-1, h)
  else if ptr < h.base then (-1, h)
  else
    let cur := ptr - h.base - 4
    if (h.mem cur).tmod 2 ≠ 1 then (-1, h)
    else
      let h1 := wrH h cur (h.mem cur - 1)
      let csize := (h1.mem cur).tdiv 8 * 8
      let h2 := wrH h1 (cur + csize - 4) csize
      let nxt := cur + (h2.mem cur).tdiv 8 * 8
      if h2.mem nxt ≠ 1 then (0, wrH h2 nxt (h2.mem nxt - 2))
      else (0, h2)

/-- One-to-one translation of the loop of `coalesce` (myHeap.c:215-239).
`cur` is the byte offset of `currentBlock`; `none` when `fuel` iterations
do not reach the end mark. -/
def coalesceLoop : Nat → Heap → Int → Option Heap
  | 0, _, _ => none
  | fuel + 1, h, cur =>
    if h.mem cur = 1 then some h
    else if (h.mem cur).tmod 2 = 0 then
      -- forward merge (myHeap.c:218-226)
      let next := cur + (h.mem cur).tdiv 8 * 8
      let h1 :=
        if (h.mem next).tmod 2 = 0 ∧ h.mem next ≠ 1 then
          let ha := wrH h cur (h.mem cur + (h.mem next).tdiv 8 * 8)
          let ts := (ha.mem cur).tdiv 8 * 8
          wrH ha (cur + ts - 4) ts
        else h
      -- backward merge (myHeap.c:228-235)
      let h2 :=
        if (h1.mem cur).tmod 8 = 0 then
          let pbit := h1.mem (cur - 4)
          let p := cur - pbit
          let hb := wrH h1 p (h1.mem p + (h1.mem cur).tdiv 8 * 8)
          let ts := (hb.mem p).tdiv 8 * 8
          wrH hb (p + ts - 4) ts
        else h1
      coalesceLoop fuel h2 (cur + (h2.mem cur).tdiv 8 * 8)
    else coalesceLoop fuel h (cur + (h.mem cur).tdiv 8 * 8)

/-- One-to-one translation of `coalesce` (myHeap.c:208-242); the C function
always returns 0, so only the heap is returned. -/
def coalesce (fuel : Nat) (h : Heap) : Option Heap :=
  coalesceLoop fuel h 0

/-! ## The abstract block chain -/

/-- An abstract heap block: its true size, its allocated bit and its
prev-allocated bit, exactly the three components packed in the
`size_status` header (myHeap.c:15-48). -/
structure Blk where
  size : Int
  alloc : Bool
  prev : Bool
deriving DecidableEq

/-- The packed `size_status` header of a block. -/
def encHdr (b : Blk) : Int :=
  b.size + (if b.prev then 2 else 0) + (if b.alloc then 1 else 0)

/-- `seg h off bs e` checks that memory from byte offset `off` up to byte
offset `e` decodes exactly as the consecutive blocks `bs`: each header
holds the packed `size_status` of a block whose true size is a positive
multiple of 8, and the blocks tile `[off, e)` with no gap. -/
def seg (h : Heap) : Int → List Blk → Int → Bool
  | off, [], e => off == e
  | off, b :: bs, e =>
    h.mem off == encHdr b && b.size.tmod 8 == 0 && decide (8 ≤ b.size) &&
      seg h (off + b.size) bs e

/-- `chainB h off bs` checks that memory from byte offset `off` decodes as
the blocks `bs` followed by the end mark (`size_status == 1`) at offset
`allocsize`. -/
def chainB (h : Heap) (off : Int) (bs : List Blk) : Bool :=
  seg h off bs h.allocsize && h.mem h.allocsize == 1

/-- `pOk a bs`: each block's `prev` bit equals the allocated bit of its
address-predecessor; `a` is the allocated bit of the conceptual block
before the first one (`true` at the arena start, myHeap.c:313-315). -/
def pOk : Bool → List Blk → Bool
  | _, [] => true
  | a, b :: bs => b.prev == a && pOk b.alloc bs

/-- No two address-adjacent blocks are both free. -/
def noAdjFree : List Blk → Bool
  | [] => true
  | [_] => true
  | b1 :: b2 :: bs => (b1.alloc || b2.alloc) && noAdjFree (b2 :: bs)

/-- The header offsets of the blocks of a chain starting at `off`. -/
def starts : Int → List Blk → List Int
  | _, [] => []
  | off, b :: bs => off :: starts (off + b.size) bs

/-- Every word of the arena that sits at an offset divisible by 8 and is
not a live block header holds an even value.  (Such words are exactly the
ones `myFree` can be pointed at besides real headers; the allocator only
ever deposits even values there.) -/
def evenOutside (h : Heap) (bs : List Blk) : Prop :=
  ∀ j : Int, 0 ≤ j → j < h.allocsize → j.tmod 8 = 0 →
    j ∉ starts 0 bs → (h.mem j).tmod 2 = 0

/-- The well-formedness invariant tying a heap state to an abstract block
chain. -/
def HeapInv (h : Heap) : Prop :=
  h.base % 8 = 4 ∧ 0 < h.base ∧ 0 ≤ h.allocsize ∧ h.allocsize.tmod 8 = 0 ∧
    ∃ bs, chainB h 0 bs = true ∧ pOk true bs = true ∧ evenOutside h bs

/-! ## Reachability

`ReachF` is unrestricted reachability through the three mutating entry
points: any `myInit` outcome, any terminating `myAlloc` call, any `myFree`
call, any terminating `coalesce` call.  `ReachW` restricts `myFree` to
calls that either fail or whose implied header lies inside the arena
(`myFree` has no upper bound check, myHeap.c:178, so a pointer just past
the arena passes validation and corrupts the end mark). -/

/-- Heap states reachable through the allocator's API, with no restriction
on the pointers handed to `myFree`. -/
inductive ReachF : Heap → Prop where
  | init : ∀ a base : Int, a.tmod 8 = 0 → 8 ≤ a → base % 8 = 4 → 0 < base →
      ReachF (myInit a base)
  | alloc : ∀ h fuel size r h', ReachF h →
      myAlloc fuel h size = some (r, h') → ReachF h'
  | free : ∀ h ptr, ReachF h → ReachF (myFree h ptr).2
  | coal : ∀ h fuel h', ReachF h → coalesce fuel h = some h' → ReachF h'

/-- Heap states reachable through the allocator's API where every `myFree`
call either fails (returns -1) or frees a header inside the arena. -/
inductive ReachW : Heap → Prop where
  | init : ∀ a base : Int, a.tmod 8 = 0 → 8 ≤ a → base % 8 = 4 → 0 < base →
      ReachW (myInit a base)
  | alloc : ∀ h fuel size r h', ReachW h →
      myAlloc fuel h size = some (r, h') → ReachW h'
  | free : ∀ h ptr, ReachW h →
      (ptr - h.base - 4 < h.allocsize ∨ (myFree h ptr).1 = -1) →
      ReachW (myFree h ptr).2
  | coal : ∀ h fuel h', ReachW h → coalesce fuel h = some h' → ReachW h'

/-! ## Arithmetic and header-decoding helpers -/

theorem tmod_eight_emod (x : Int) (hx : 0 ≤ x) : x.tmod 8 = x % 8 :=
  Int.tmod_eq_emod hx (by omega)

theorem tmod_two_emod (x : Int) (hx : 0 ≤ x) : x.tmod 2 = x % 2 :=
  Int.tmod_eq_emod hx (by omega)

theorem tdiv_eight_mul (s c : Int) (hs : 0 ≤ s) (h8 : s % 8 = 0)
    (hc : 0 ≤ c) (hc8 : c < 8) : (s + c).tdiv 8 * 8 = s := by
  rw [Int.tdiv_eq_ediv (by omega) (by omega)]
  omega

theorem land_one_nonneg (x : Int) (hx : 0 ≤ x) : Int.land x 1 = x % 2 := by
  obtain ⟨n, rfl⟩ := Int.eq_ofNat_of_zero_le hx
  have h1 : Int.land (n : Int) 1 = ((n &&& 1 : Nat) : Int) := rfl
  rw [h1, Nat.and_one_is_mod]
  omega

theorem land_two_nonneg (x : Int) (hx : 0 ≤ x) :
    Int.land x 2 = if x % 4 < 2 then 0 else 2 := by
  obtain ⟨n, rfl⟩ := Int.eq_ofNat_of_zero_le hx
  have h1 : Int.land (n : Int) 2 = ((n &&& 2 : Nat) : Int) := rfl
  have h2 : n &&& 2 = (n.testBit 1).toNat * 2 := Nat.and_two_pow n 1
  have h3 : n.testBit 1 = decide (n / 2 % 2 = 1) := by
    rw [show (1 : Nat) = Nat.succ 0 from rfl, Nat.testBit_succ, Nat.testBit_zero]
  rw [h1, h2, h3]
  by_cases hodd : n / 2 % 2 = 1
  · simp only [hodd]
    have : ¬ ((n : Int) % 4 < 2) := by omega
    simp [this]
  · simp only [hodd]
    have : (n : Int) % 4 < 2 := by omega
    simp [hodd, this]

/-- A well-sized block header: its shape as used throughout. -/
theorem encHdr_shape (b : Blk) :
    encHdr b = b.size + (if b.prev then 2 else 0) + (if b.alloc then 1 else 0) := rfl

theorem encHdr_nonneg (b : Blk) (hs : 8 ≤ b.size) : 0 ≤ encHdr b := by
  rw [encHdr_shape]; split <;> split <;> omega

theorem encHdr_ne_one (b : Blk) (hs : 8 ≤ b.size) : encHdr b ≠ 1 := by
  rw [encHdr_shape]; split <;> split <;> omega

theorem encHdr_land_one (b : Blk) (h8 : b.size.tmod 8 = 0) (hs : 8 ≤ b.size) :
    Int.land (encHdr b) 1 = if b.alloc then 1 else 0 := by
  have hm := tmod_eight_emod b.size (by omega)
  rw [land_one_nonneg _ (encHdr_nonneg b hs), encHdr_shape]
  split <;> split <;> omega

theorem encHdr_land_two (b : Blk) (h8 : b.size.tmod 8 = 0) (hs : 8 ≤ b.size) :
    Int.land (encHdr b) 2 = if b.prev then 2 else 0 := by
  have hm := tmod_eight_emod b.size (by omega)
  rw [land_two_nonneg _ (encHdr_nonneg b hs), encHdr_shape]
  rcases b.prev <;> rcases b.alloc <;> simp <;> omega

theorem encHdr_tmod_two (b : Blk) (h8 : b.size.tmod 8 = 0) (hs : 8 ≤ b.size) :
    (encHdr b).tmod 2 = if b.alloc then 1 else 0 := by
  have hm := tmod_eight_emod b.size (by omega)
  rw [tmod_two_emod _ (encHdr_nonneg b hs), encHdr_shape]
  split <;> split <;> omega

theorem encHdr_tmod_eight (b : Blk) (h8 : b.size.tmod 8 = 0) (hs : 8 ≤ b.size) :
    (encHdr b).tmod 8 =
      (if b.prev then 2 else 0) + (if b.alloc then 1 else 0) := by
  have hm := tmod_eight_emod b.size (by omega)
  rw [tmod_eight_emod _ (encHdr_nonneg b hs), encHdr_shape]
  split <;> split <;> omega

theorem encHdr_tdiv_eight (b : Blk) (h8 : b.size.tmod 8 = 0) (hs : 8 ≤ b.size) :
    (encHdr b).tdiv 8 * 8 = b.size := by
  have hm := tmod_eight_emod b.size (by omega)
  rw [encHdr_shape]
  have : b.size + (if b.prev then 2 else 0) + (if b.alloc then 1 else 0) =
      b.size + ((if b.prev then 2 else 0) + (if b.alloc then 1 else 0)) := by ring
  rw [this]
  exact tdiv_eight_mul _ _ (by omega) (by omega)
    (by split <;> split <;> omega) (by split <;> split <;> omega)

theorem roundedSize_eq (n : Int) :
    roundedSize n = if (4 + n).tmod 8 ≠ 0 then
      (4 + n) + (8 - (4 + n).tmod 8) else 4 + n := rfl

theorem roundedSize_tmod (n : Int) (hn : 0 < n) : (roundedSize n).tmod 8 = 0 := by
  have hm := Int.tmod_eq_emod (show (0:Int) ≤ 4 + n by omega)
    (show (0:Int) ≤ 8 by omega)
  rw [roundedSize_eq]
  split
  · rw [Int.tmod_eq_emod (by omega) (by omega)]
    omega
  · omega

theorem roundedSize_ge (n : Int) (hn : 0 < n) : 8 ≤ roundedSize n := by
  have hm := Int.tmod_eq_emod (show (0:Int) ≤ 4 + n by omega)
    (show (0:Int) ≤ 8 by omega)
  rw [roundedSize_eq]
  split <;> omega

/-! ## Chain segment lemmas -/

/-- Total size of a list of blocks. -/
def sumSizes : List Blk → Int
  | [] => 0
  | b :: bs => b.size + sumSizes bs

theorem seg_nil_iff (h : Heap) (off e : Int) : seg h off [] e = true ↔ off = e := by
  simp [seg]

theorem seg_cons_iff (h : Heap) (off e : Int) (b : Blk) (bs : List Blk) :
    seg h off (b :: bs) e = true ↔
      h.mem off = encHdr b ∧ b.size.tmod 8 = 0 ∧ 8 ≤ b.size ∧
        seg h (off + b.size) bs e = true := by
  simp [seg, and_assoc]

theorem seg_end (h : Heap) (e : Int) :
    ∀ bs off, seg h off bs e = true → e = off + sumSizes bs := by
  intro bs
  induction bs with
  | nil => intro off hs; rw [seg_nil_iff] at hs; simp [sumSizes, hs]
  | cons b bs ih =>
    intro off hs
    rw [seg_cons_iff] at hs
    have := ih (off + b.size) hs.2.2.2
    simp [sumSizes]; omega

theorem seg_sum_nonneg (h : Heap) (e : Int) :
    ∀ bs off, seg h off bs e = true → 0 ≤ sumSizes bs := by
  intro bs
  induction bs with
  | nil => intro off _; simp [sumSizes]
  | cons b bs ih =>
    intro off hs
    rw [seg_cons_iff] at hs
    have := ih (off + b.size) hs.2.2.2
    simp [sumSizes]; omega

theorem seg_sum_dvd (h : Heap) (e : Int) :
    ∀ bs off, seg h off bs e = true → (8:Int) ∣ sumSizes bs := by
  intro bs
  induction bs with
  | nil => intro off _; simp [sumSizes]
  | cons b bs ih =>
    intro off hs
    rw [seg_cons_iff] at hs
    have h1 := ih (off + b.size) hs.2.2.2
    have h2 : (8:Int) ∣ b.size := Int.dvd_iff_tmod_eq_zero.mpr hs.2.1
    simp only [sumSizes]
    exact Int.dvd_add h2 h1

theorem seg_append_iff (h : Heap) (e : Int) (l2 : List Blk) :
    ∀ l1 off, seg h off (l1 ++ l2) e = true ↔
      seg h off l1 (off + sumSizes l1) = true ∧
        seg h (off + sumSizes l1) l2 e = true := by
  intro l1
  induction l1 with
  | nil => intro off; simp [seg_nil_iff, sumSizes]
  | cons b l1 ih =>
    intro off
    simp only [List.cons_append, seg_cons_iff, ih (off + b.size), sumSizes,
      ← add_assoc]
    tauto

theorem starts_mem_bounds (h : Heap) (e : Int) :
    ∀ bs off, seg h off bs e = true → ∀ x ∈ starts off bs, off ≤ x ∧ x + 8 ≤ e := by
  intro bs
  induction bs with
  | nil => intro off _ x hx; simp [starts] at hx
  | cons b bs ih =>
    intro off hs x hx
    rw [seg_cons_iff] at hs
    obtain ⟨h1, h2, h3, h4⟩ := hs
    have hend := seg_end h e bs (off + b.size) h4
    have hnn := seg_sum_nonneg h e bs (off + b.size) h4
    simp only [starts, List.mem_cons] at hx
    rcases hx with rfl | hx
    · omega
    · have := ih (off + b.size) h4 x hx
      omega

theorem starts_mem_dvd (h : Heap) (e : Int) :
    ∀ bs off, seg h off bs e = true → (8:Int) ∣ off →
      ∀ x ∈ starts off bs, (8:Int) ∣ x := by
  intro bs
  induction bs with
  | nil => intro off _ _ x hx; simp [starts] at hx
  | cons b bs ih =>
    intro off hs hoff x hx
    rw [seg_cons_iff] at hs
    obtain ⟨h1, h2, h3, h4⟩ := hs
    simp only [starts, List.mem_cons] at hx
    rcases hx with rfl | hx
    · exact hoff
    · exact ih (off + b.size) h4
        (Int.dvd_add hoff (Int.dvd_iff_tmod_eq_zero.mpr h2)) x hx

theorem starts_append (l1 l2 : List Blk) :
    ∀ off, starts off (l1 ++ l2) =
      starts off l1 ++ starts (off + sumSizes l1) l2 := by
  induction l1 with
  | nil => intro off; simp [starts, sumSizes]
  | cons b l1 ih =>
    intro off
    simp only [List.cons_append, starts, sumSizes, List.cons.injEq, true_and,
      ← add_assoc]
    exact ih (off + b.size)

theorem wrH_mem_ne (h : Heap) (i v j : Int) (hij : j ≠ i) :
    (wrH h i v).mem j = h.mem j := by
  simp [wrH, wr, hij]

theorem wrH_mem_eq (h : Heap) (i v : Int) : (wrH h i v).mem i = v := by
  simp [wrH, wr]

theorem wrH_base (h : Heap) (i v : Int) : (wrH h i v).base = h.base := rfl

theorem wrH_allocsize (h : Heap) (i v : Int) :
    (wrH h i v).allocsize = h.allocsize := rfl

theorem seg_wr (h : Heap) (i v e : Int) :
    ∀ bs off, i ∉ starts off bs →
      seg (wrH h i v) off bs e = seg h off bs e := by
  intro bs
  induction bs with
  | nil => intro off _; simp [seg]
  | cons b bs ih =>
    intro off hi
    simp only [starts, List.mem_cons, not_or] at hi
    simp only [seg]
    rw [wrH_mem_ne h i v off (fun hc => hi.1 hc.symm), ih (off + b.size) hi.2]

theorem encHdr_inj (b1 b2 : Blk)
    (h1 : b1.size.tmod 8 = 0) (l1 : 8 ≤ b1.size)
    (h2 : b2.size.tmod 8 = 0) (l2 : 8 ≤ b2.size)
    (he : encHdr b1 = encHdr b2) : b1 = b2 := by
  obtain ⟨s1, a1, p1⟩ := b1
  obtain ⟨s2, a2, p2⟩ := b2
  simp only [encHdr] at he
  simp only at h1 l1 h2 l2
  rw [tmod_eight_emod _ (by omega)] at h1
  rw [tmod_eight_emod _ (by omega)] at h2
  have hs : s1 = s2 ∧ (a1 = a2) ∧ (p1 = p2) := by
    rcases a1 <;> rcases a2 <;> rcases p1 <;> rcases p2 <;>
      simp_all <;> omega
  simp [hs.1, hs.2.1, hs.2.2]

theorem seg_unique (h : Heap) (e : Int) :
    ∀ bs1 bs2 off, seg h off bs1 e = true → seg h off bs2 e = true →
      bs1 = bs2 := by
  intro bs1
  induction bs1 with
  | nil =>
    intro bs2 off hs1 hs2
    rw [seg_nil_iff] at hs1
    cases bs2 with
    | nil => rfl
    | cons b2 t2 =>
      rw [seg_cons_iff] at hs2
      have hend := seg_end h e t2 (off + b2.size) hs2.2.2.2
      have hnn := seg_sum_nonneg h e t2 (off + b2.size) hs2.2.2.2
      omega
  | cons b1 t1 ih =>
    intro bs2 off hs1 hs2
    rw [seg_cons_iff] at hs1
    cases bs2 with
    | nil =>
      rw [seg_nil_iff] at hs2
      have hend := seg_end h e t1 (off + b1.size) hs1.2.2.2
      have hnn := seg_sum_nonneg h e t1 (off + b1.size) hs1.2.2.2
      omega
    | cons b2 t2 =>
      rw [seg_cons_iff] at hs2
      have hb : b1 = b2 :=
        encHdr_inj b1 b2 hs1.2.1 hs1.2.2.1 hs2.2.1 hs2.2.2.1
          (hs1.1 ▸ hs2.1)
      subst hb
      rw [ih t2 (off + b1.size) hs1.2.2.2 hs2.2.2.2]

/-- Blocks of a chain paired with their header offsets. -/
def offBlks : Int → List Blk → List (Int × Blk)
  | _, [] => []
  | off, b :: bs => (off, b) :: offBlks (off + b.size) bs

theorem offBlks_fst (bs : List Blk) :
    ∀ off, (offBlks off bs).map Prod.fst = starts off bs := by
  induction bs with
  | nil => intro off; simp [offBlks, starts]
  | cons b bs ih => intro off; simp [offBlks, starts, ih (off + b.size)]

theorem offBlks_mem_decomp (bs : List Blk) (o : Int) (b : Blk) :
    ∀ off, (o, b) ∈ offBlks off bs →
      ∃ l1 l2, bs = l1 ++ b :: l2 ∧ o = off + sumSizes l1 := by
  induction bs with
  | nil => intro off hm; simp [offBlks] at hm
  | cons b0 bs ih =>
    intro off hm
    simp only [offBlks, List.mem_cons] at hm
    rcases hm with he | hm
    · exact ⟨[], bs, by simp [Prod.ext_iff] at he; simp [he.2],
        by simp [Prod.ext_iff] at he; simp [sumSizes, he.1]⟩
    · obtain ⟨l1, l2, hbs, ho⟩ := ih (off + b0.size) hm
      exact ⟨b0 :: l1, l2, by simp [hbs], by simp [sumSizes]; omega⟩

theorem offBlks_append (l1 l2 : List Blk) :
    ∀ off, offBlks off (l1 ++ l2) =
      offBlks off l1 ++ offBlks (off + sumSizes l1) l2 := by
  induction l1 with
  | nil => intro off; simp [offBlks, sumSizes]
  | cons b l1 ih =>
    intro off
    simp only [List.cons_append, offBlks, sumSizes, List.cons.injEq, true_and,
      ← add_assoc]
    exact ih (off + b.size)

/-! ## `pOk`, `endAl`, `noAdjFree` utilities -/

/-- The allocated bit of the last block of `bs`, or `a` when `bs` is empty:
the allocated status of the address-predecessor of whatever follows `bs`. -/
def endAl (a : Bool) : List Blk → Bool
  | [] => a
  | b :: bs => endAl b.alloc bs

theorem pOk_append (l1 l2 : List Blk) :
    ∀ a, pOk a (l1 ++ l2) = (pOk a l1 && pOk (endAl a l1) l2) := by
  induction l1 with
  | nil => intro a; simp [pOk, endAl]
  | cons b l1 ih =>
    intro a
    simp only [List.cons_append, pOk, endAl, List.append_eq, ih b.alloc,
      Bool.and_assoc]

theorem endAl_append (l1 l2 : List Blk) :
    ∀ a, endAl a (l1 ++ l2) = endAl (endAl a l1) l2 := by
  induction l1 with
  | nil => intro a; simp [endAl]
  | cons b l1 ih => intro a; simp [endAl, ih]

/-- `noAdjFree` with an explicit "allocated bit of the predecessor" seed,
which makes it compose under append. -/
def noAdjFreeFrom (a : Bool) : List Blk → Bool
  | [] => true
  | b :: bs => (a || b.alloc) && noAdjFreeFrom b.alloc bs

theorem noAdjFreeFrom_append (l1 l2 : List Blk) :
    ∀ a, noAdjFreeFrom a (l1 ++ l2) =
      (noAdjFreeFrom a l1 && noAdjFreeFrom (endAl a l1) l2) := by
  induction l1 with
  | nil => intro a; simp [noAdjFreeFrom, endAl]
  | cons b l1 ih =>
    intro a
    simp only [List.cons_append, noAdjFreeFrom, endAl, List.append_eq,
      ih b.alloc, Bool.and_assoc]

theorem noAdjFreeFrom_true (bs : List Blk) :
    noAdjFreeFrom true bs = noAdjFree bs := by
  induction bs with
  | nil => rfl
  | cons b bs ih =>
    cases bs with
    | nil => simp [noAdjFreeFrom, noAdjFree]
    | cons b2 t =>
      simp only [noAdjFreeFrom, noAdjFree, Bool.true_or, Bool.true_and] at ih ⊢
      rw [ih]

/-! ## The best-fit scan: abstract characterization -/

/-- Effect of one scan iteration on the scan state when the scanned header
belongs to a well-formed block. -/
def scanStep (size : Int) (st : ScanSt) (ob : Int × Blk) : ScanSt :=
  if ob.2.alloc = false ∧ size ≤ ob.2.size ∧
      (st.memoryAvailable = -1 ∨ ob.2.size < st.memoryAvailable) then
    ⟨ob.2.size, ob.1, if ob.2.prev then 2 else 0⟩
  else st

theorem scanLoop_step (h : Heap) (size : Int) (fuel : Nat) (off : Int)
    (st : ScanSt) (b : Blk) (hmem : h.mem off = encHdr b)
    (h8 : b.size.tmod 8 = 0) (hs : 8 ≤ b.size) :
    scanLoop h size (fuel + 1) off st =
      scanLoop h size fuel (off + b.size) (scanStep size st (off, b)) := by
  have hland1 := encHdr_land_one b h8 hs
  have hland2 := encHdr_land_two b h8 hs
  have htmod2 := encHdr_tmod_two b h8 hs
  simp only [scanLoop, hmem, if_neg (encHdr_ne_one b hs), hland1, hland2,
    htmod2, scanStep]
  rcases hA : b.alloc <;> rcases hP : b.prev <;>
    simp only [encHdr, hA, hP, if_true, if_false, Bool.false_eq_true,
      add_zero, ne_eq, OfNat.ofNat_ne_zero, not_true, not_false_iff,
      ite_true, ite_false, one_ne_zero] <;>
    norm_num

theorem scanLoop_spec (h : Heap) (size e : Int) (hend : h.mem e = 1) :
    ∀ bs off st, seg h off bs e = true →
      scanLoop h size (bs.length + 1) off st =
        some (List.foldl (scanStep size) st (offBlks off bs)) := by
  intro bs
  induction bs with
  | nil =>
    intro off st hs
    rw [seg_nil_iff] at hs
    subst hs
    simp [scanLoop, hend, offBlks]
  | cons b bs ih =>
    intro off st hs
    rw [seg_cons_iff] at hs
    obtain ⟨h1, h2, h3, h4⟩ := hs
    rw [List.length_cons, scanLoop_step h size (bs.length + 1) off st b h1 h2 h3]
    rw [ih (off + b.size) (scanStep size st (off, b)) h4]
    simp [offBlks]

theorem scanLoop_mono (h : Heap) (size : Int) :
    ∀ fuel off st r, scanLoop h size fuel off st = some r →
      scanLoop h size (fuel + 1) off st = some r := by
  intro fuel
  induction fuel with
  | zero => intro off st r hr; simp [scanLoop] at hr
  | succ fuel ih =>
    intro off st r hr
    rw [scanLoop] at hr
    rw [scanLoop]
    split at hr
    · rename_i hone
      simp only [if_pos hone]
      exact hr
    · rename_i hone
      simp only [if_neg hone]
      exact ih _ _ r hr

theorem scanLoop_le (h : Heap) (size : Int) (f f' : Nat) (hle : f ≤ f') :
    ∀ off st r, scanLoop h size f off st = some r →
      scanLoop h size f' off st = some r := by
  induction f' with
  | zero =>
    intro off st r hr
    have : f = 0 := by omega
    subst this
    simp [scanLoop] at hr
  | succ f' ih =>
    intro off st r hr
    by_cases hf : f = f' + 1
    · subst hf; exact hr
    · exact scanLoop_mono h size f' off st r (ih (by omega) off st r hr)

theorem scanLoop_det (h : Heap) (size : Int) (f f' : Nat) (off : Int)
    (st r r' : ScanSt) (h1 : scanLoop h size f off st = some r)
    (h2 : scanLoop h size f' off st = some r') : r = r' := by
  have e1 := scanLoop_le h size f (f + f') (by omega) off st r h1
  have e2 := scanLoop_le h size f' (f + f') (by omega) off st r' h2
  rw [e1] at e2
  exact Option.some.inj e2

/-- `(o, b)` can satisfy a request of rounded block size `size`: the block
is free and large enough. -/
def isCand (size : Int) (ob : Int × Blk) : Prop :=
  ob.2.alloc = false ∧ size ≤ ob.2.size

/-- Invariant of the best-fit fold over the processed part of the chain:
either nothing was recorded and nothing processed was a candidate, or the
state records the first smallest candidate processed so far. -/
def scanInv (size : Int) (proc : List (Int × Blk)) (st : ScanSt) : Prop :=
  (st = ⟨-1, 0, 0⟩ ∧ ∀ ob ∈ proc, ¬ isCand size ob) ∨
  (∃ ob ∈ proc, isCand size ob ∧
    st = ⟨ob.2.size, ob.1, if ob.2.prev then 2 else 0⟩ ∧
    (∀ ob' ∈ proc, isCand size ob' → ob.2.size ≤ ob'.2.size) ∧
    (∀ ob' ∈ proc, isCand size ob' → ob'.2.size = ob.2.size → ob.1 ≤ ob'.1))

theorem scanStep_inv (size : Int) (hsize : 0 < size)
    (proc : List (Int × Blk)) (st : ScanSt) (x : Int × Blk)
    (hpw : ∀ a ∈ proc, a.1 < x.1)
    (hinv : scanInv size proc st) :
    scanInv size (proc ++ [x]) (scanStep size st x) := by
  rcases hinv with ⟨hst, hno⟩ | ⟨ob, hmem, hcand, hst, hmin, htie⟩
  · by_cases hc : isCand size x
    · right
      refine ⟨x, by simp, hc, ?_, ?_, ?_⟩
      · rw [scanStep, if_pos ⟨hc.1, hc.2, by rw [hst]; left; rfl⟩]
      · intro ob' hm hcand'
        rcases List.mem_append.mp hm with hm | hm
        · exact absurd hcand' (hno ob' hm)
        · simp at hm; subst hm; rfl
      · intro ob' hm hcand' _
        rcases List.mem_append.mp hm with hm | hm
        · exact absurd hcand' (hno ob' hm)
        · simp at hm; subst hm; rfl
    · left
      constructor
      · rw [scanStep, if_neg (fun hcon => hc ⟨hcon.1, hcon.2.1⟩), hst]
      · intro ob' hm
        rcases List.mem_append.mp hm with hm | hm
        · exact hno ob' hm
        · simp at hm; subst hm; exact hc
  · have hmA : st.memoryAvailable = ob.2.size := by rw [hst]
    have hmApos : st.memoryAvailable ≠ -1 := by
      rw [hmA]; have := hcand.2; omega
    by_cases hc : isCand size x ∧ x.2.size < st.memoryAvailable
    · right
      refine ⟨x, by simp, hc.1, ?_, ?_, ?_⟩
      · rw [scanStep, if_pos ⟨hc.1.1, hc.1.2, Or.inr hc.2⟩]
      · intro ob' hm hcand'
        rcases List.mem_append.mp hm with hm | hm
        · have := hmin ob' hm hcand'
          rw [hmA] at hc
          omega
        · simp at hm; subst hm; rfl
      · intro ob' hm hcand' hsz
        rcases List.mem_append.mp hm with hm | hm
        · have := hmin ob' hm hcand'
          rw [hmA] at hc
          omega
        · simp at hm; subst hm; rfl
    · have hkeep : scanStep size st x = st := by
        rw [scanStep, if_neg]
        intro hcon
        rcases hcon with ⟨ha, hb, hm1 | hm2⟩
        · exact hmApos hm1
        · exact hc ⟨⟨ha, hb⟩, hm2⟩
      rw [hkeep]
      right
      refine ⟨ob, List.mem_append.mpr (Or.inl hmem), hcand, hst, ?_, ?_⟩
      · intro ob' hm hcand'
        rcases List.mem_append.mp hm with hm | hm
        · exact hmin ob' hm hcand'
        · simp at hm
          rw [hm]
          rw [hm] at hcand'
          rw [hmA] at hc
          by_cases hx : x.2.size < ob.2.size
          · exact absurd ⟨hcand', hx⟩ hc
          · omega
      · intro ob' hm hcand' hsz
        rcases List.mem_append.mp hm with hm | hm
        · exact htie ob' hm hcand' hsz
        · simp at hm
          rw [hm]
          exact le_of_lt (hpw ob hmem)

theorem scanFold_inv (size : Int) (hsize : 0 < size) :
    ∀ (l proc : List (Int × Blk)) (st : ScanSt),
      List.Pairwise (fun a b => a.1 < b.1) (proc ++ l) →
      scanInv size proc st →
      scanInv size (proc ++ l) (List.foldl (scanStep size) st l) := by
  intro l
  induction l with
  | nil => intro proc st _ hinv; simpa using hinv
  | cons x l ih =>
    intro proc st hpw hinv
    have hfold : List.foldl (scanStep size) st (x :: l) =
        List.foldl (scanStep size) (scanStep size st x) l := rfl
    rw [hfold]
    have hassoc : proc ++ x :: l = (proc ++ [x]) ++ l := by simp
    rw [hassoc]
    refine ih (proc ++ [x]) (scanStep size st x) (by rw [← hassoc]; exact hpw) ?_
    refine scanStep_inv size hsize proc st x ?_ hinv
    intro a ha
    have := (List.pairwise_append.mp hpw).2.2 a ha x (by simp)
    exact this

theorem offBlks_mem_starts (bs : List Blk) (o : Int) (b : Blk) :
    ∀ off, (o, b) ∈ offBlks off bs → o ∈ starts off bs := by
  intro off hm
  rw [← offBlks_fst]
  exact List.mem_map.mpr ⟨(o, b), hm, rfl⟩

theorem offBlks_pairwise (h : Heap) (e : Int) :
    ∀ bs off, seg h off bs e = true →
      List.Pairwise (fun a b : Int × Blk => a.1 < b.1) (offBlks off bs) := by
  intro bs
  induction bs with
  | nil => intro off _; simp [offBlks]
  | cons b bs ih =>
    intro off hs
    rw [seg_cons_iff] at hs
    obtain ⟨h1, h2, h3, h4⟩ := hs
    simp only [offBlks, List.pairwise_cons]
    refine ⟨?_, ih (off + b.size) h4⟩
    intro ob hm
    have := starts_mem_bounds h e bs (off + b.size) h4 ob.1
      (offBlks_mem_starts bs ob.1 ob.2 (off + b.size) (by simpa using hm))
    omega

/-- Full characterization of a terminating best-fit scan over a well-formed
chain: its result satisfies the best-fit invariant for the whole chain. -/
theorem scan_bestFit (h : Heap) (size : Int) (hsize : 0 < size)
    (bs : List Blk) (hch : chainB h 0 bs = true) (fuel : Nat) (st : ScanSt)
    (hrun : scanLoop h size fuel 0 ⟨-1, 0, 0⟩ = some st) :
    scanInv size (offBlks 0 bs) st := by
  have hseg : seg h 0 bs h.allocsize = true := by
    have := hch
    unfold chainB at this
    exact (Bool.and_eq_true _ _ |>.mp this).1
  have hone : h.mem h.allocsize = 1 := by
    have := hch
    unfold chainB at this
    have := (Bool.and_eq_true _ _ |>.mp this).2
    exact beq_iff_eq.mp this
  have hspec := scanLoop_spec h size h.allocsize hone bs 0 ⟨-1, 0, 0⟩ hseg
  have hst : st = List.foldl (scanStep size) ⟨-1, 0, 0⟩ (offBlks 0 bs) :=
    scanLoop_det h size fuel (bs.length + 1) 0 ⟨-1, 0, 0⟩ st _ hrun hspec
  have hinv := scanFold_inv size hsize (offBlks 0 bs) [] ⟨-1, 0, 0⟩
    (by simpa using offBlks_pairwise h h.allocsize bs 0 hseg)
    (Or.inl ⟨rfl, by simp⟩)
  rw [← hst] at hinv
  simpa using hinv

/-! ## `myAlloc`: unfolding a successful call -/

theorem myAlloc_none_eq (fuel : Nat) (h : Heap) (n : Int) (h' : Heap)
    (hal : myAlloc fuel h n = some (none, h')) : h' = h := by
  unfold myAlloc at hal
  split at hal
  · simpa using (Prod.ext_iff.mp (Option.some.inj hal)).2.symm
  · simp only [] at hal
    split at hal
    · simpa using (Prod.ext_iff.mp (Option.some.inj hal)).2.symm
    · split at hal
      · simp at hal
      · split at hal
        · split at hal <;> simp at hal
        · split at hal
          · split at hal <;> simp at hal
          · simpa using (Prod.ext_iff.mp (Option.some.inj hal)).2.symm

theorem myAlloc_some_elim (fuel : Nat) (h : Heap) (n : Int) (r : Int)
    (h' : Heap) (hal : myAlloc fuel h n = some (some r, h')) :
    0 < n ∧ roundedSize n ≤ h.allocsize ∧
    ∃ st, scanLoop h (roundedSize n) fuel 0 ⟨-1, 0, 0⟩ = some st ∧
      r = h.base + st.block + 4 ∧
      roundedSize n ≤ st.memoryAvailable ∧
      ((roundedSize n < st.memoryAvailable ∧
        ((wrH h st.block (roundedSize n + st.previousBlock + 1)).mem
            (st.block + roundedSize n) = 1 ∧
          h' = wrH h st.block (roundedSize n + st.previousBlock + 1) ∨
        (wrH h st.block (roundedSize n + st.previousBlock + 1)).mem
            (st.block + roundedSize n) ≠ 1 ∧
          h' = wrH (wrH h st.block (roundedSize n + st.previousBlock + 1))
                (st.block + roundedSize n)
                (st.memoryAvailable - roundedSize n + 2))) ∨
       (st.memoryAvailable = roundedSize n ∧
        ((wrH h st.block (h.mem st.block + 1)).mem
            (st.block + roundedSize n) = 1 ∧
          h' = wrH h st.block (h.mem st.block + 1) ∨
        (wrH h st.block (h.mem st.block + 1)).mem
            (st.block + roundedSize n) ≠ 1 ∧
          h' = wrH (wrH h st.block (h.mem st.block + 1))
                (st.block + roundedSize n)
                ((wrH h st.block (h.mem st.block + 1)).mem
                  (st.block + roundedSize n) + 2)))) := by
  unfold myAlloc at hal
  split at hal
  · simp at hal
  · rename_i hn
    simp only [] at hal
    split at hal
    · simp at hal
    · rename_i hsz
      split at hal
      · simp at hal
      · rename_i st hscan
        refine ⟨by omega, by omega, st, hscan, ?_⟩
        split at hal
        · rename_i hlt
          split at hal
          · rename_i hone
            have hpr := Prod.ext_iff.mp (Option.some.inj hal)
            refine ⟨(Option.some.inj hpr.1).symm, by omega,
              Or.inl ⟨hlt, Or.inl ⟨hone, hpr.2.symm⟩⟩⟩
          · rename_i hone
            have hpr := Prod.ext_iff.mp (Option.some.inj hal)
            refine ⟨(Option.some.inj hpr.1).symm, by omega,
              Or.inl ⟨hlt, Or.inr ⟨hone, hpr.2.symm⟩⟩⟩
        · rename_i hlt
          split at hal
          · rename_i heq
            split at hal
            · rename_i hone
              have hpr := Prod.ext_iff.mp (Option.some.inj hal)
              refine ⟨(Option.some.inj hpr.1).symm, by omega,
                Or.inr ⟨heq, Or.inl ⟨hone, hpr.2.symm⟩⟩⟩
            · rename_i hone
              have hpr := Prod.ext_iff.mp (Option.some.inj hal)
              refine ⟨(Option.some.inj hpr.1).symm, by omega,
                Or.inr ⟨heq, Or.inr ⟨hone, hpr.2.symm⟩⟩⟩
          · simp at hal

/-! ## `myInit` establishes the invariant -/

theorem myInit_mem (a base j : Int) : (myInit a base).mem j =
    if j = a - 4 then a else if j = 0 then a + 2 else if j = a then 1 else 0 :=
  rfl

/-- The abstract chain of a fresh heap: one free block spanning the arena,
with its prev bit set. -/
def initBlks (a : Int) : List Blk := [⟨a, false, true⟩]

theorem myInit_chain (a base : Int) (h8 : a.tmod 8 = 0) (ha : 8 ≤ a) :
    chainB (myInit a base) 0 (initBlks a) = true := by
  have hmod := tmod_eight_emod a (by omega)
  unfold chainB initBlks
  rw [Bool.and_eq_true]
  constructor
  · rw [seg_cons_iff]
    refine ⟨?_, h8, ha, ?_⟩
    · rw [myInit_mem]
      rw [if_neg (by omega), if_pos rfl]
      simp [encHdr]
    · simp only [seg]
      simp [show (0:Int) + a = a from by ring, myInit]
  · rw [show (myInit a base).allocsize = a from rfl, myInit_mem]
    rw [if_neg (by omega), if_neg (by omega), if_pos rfl]
    simp

theorem myInit_inv (a base : Int) (h8 : a.tmod 8 = 0) (ha : 8 ≤ a)
    (hb : base % 8 = 4) (hb0 : 0 < base) : HeapInv (myInit a base) := by
  have hmod := tmod_eight_emod a (by omega)
  refine ⟨hb, hb0, by simpa [myInit] using by omega, h8,
    initBlks a, myInit_chain a base h8 ha, by simp [pOk, initBlks], ?_⟩
  intro j hj0 hja hj8 hjs
  rw [tmod_eight_emod j hj0] at hj8
  simp only [initBlks, starts, List.mem_singleton] at hjs
  rw [myInit_mem]
  rw [if_neg (by omega), if_neg (by simpa using hjs),
    if_neg (by simp [myInit] at hja; omega)]
  simp

/-! ## Locating a found block inside a well-formed chain -/

theorem chainB_parts (h : Heap) (bs : List Blk) (hch : chainB h 0 bs = true) :
    seg h 0 bs h.allocsize = true ∧ h.mem h.allocsize = 1 := by
  unfold chainB at hch
  rw [Bool.and_eq_true] at hch
  exact ⟨hch.1, beq_iff_eq.mp hch.2⟩

theorem chainB_of_parts (h : Heap) (bs : List Blk)
    (h1 : seg h 0 bs h.allocsize = true) (h2 : h.mem h.allocsize = 1) :
    chainB h 0 bs = true := by
  unfold chainB
  rw [Bool.and_eq_true]
  exact ⟨h1, beq_iff_eq.mpr h2⟩

theorem chain_found (h : Heap) (bs : List Blk) (hch : chainB h 0 bs = true)
    (o : Int) (b : Blk) (hm : (o, b) ∈ offBlks 0 bs) :
    ∃ pre post, bs = pre ++ b :: post ∧ o = sumSizes pre ∧
      seg h 0 pre o = true ∧ h.mem o = encHdr b ∧ b.size.tmod 8 = 0 ∧
      8 ≤ b.size ∧ seg h (o + b.size) post h.allocsize = true ∧
      h.mem h.allocsize = 1 ∧ 0 ≤ o ∧ (8:Int) ∣ o ∧
      o + b.size + sumSizes post = h.allocsize ∧ 0 ≤ sumSizes post := by
  obtain ⟨hseg, hone⟩ := chainB_parts h bs hch
  obtain ⟨pre, post, hbs, ho⟩ := offBlks_mem_decomp bs o b 0 hm
  subst hbs
  rw [seg_append_iff] at hseg
  have h0 : (0:Int) + sumSizes pre = o := by omega
  rw [h0] at hseg
  obtain ⟨hpre, hrest⟩ := hseg
  rw [seg_cons_iff] at hrest
  obtain ⟨hhdr, h8, hs, hpost⟩ := hrest
  have hdvd : (8:Int) ∣ o := by
    have := seg_sum_dvd h o pre 0 hpre
    omega
  have hnn : 0 ≤ sumSizes pre := seg_sum_nonneg h o pre 0 hpre
  have hpostend := seg_end h h.allocsize post (o + b.size) hpost
  have hpostnn := seg_sum_nonneg h h.allocsize post (o + b.size) hpost
  exact ⟨pre, post, rfl, by omega, hpre, hhdr, h8, hs, hpost, hone,
    by omega, hdvd, by omega, hpostnn⟩

/-- A word at a multiple-of-8 offset strictly inside a block of a
well-formed chain holds an even value. -/
theorem interior_even (h : Heap) (pre post : List Blk) (b : Blk) (o : Int)
    (hpre : seg h 0 pre o = true)
    (hpost : seg h (o + b.size) post h.allocsize = true)
    (heven : evenOutside h (pre ++ b :: post))
    (hend : o + b.size + sumSizes post = h.allocsize)
    (hpostnn : 0 ≤ sumSizes post)
    (x : Int) (hx0 : 0 ≤ x) (hx1 : o < x) (hx2 : x < o + b.size)
    (hxd : (8:Int) ∣ x) : (h.mem x).tmod 2 = 0 := by
  have hsum : sumSizes pre = o := by
    have := seg_end h o pre 0 hpre
    omega
  apply heven x hx0 (by omega) (Int.dvd_iff_tmod_eq_zero.mp hxd)
  rw [starts_append]
  intro hmem
  rcases List.mem_append.mp hmem with hm | hm
  · have := starts_mem_bounds h o pre 0 hpre x hm
    omega
  · rw [show (0:Int) + sumSizes pre = o from by omega] at hm
    simp only [starts, List.mem_cons] at hm
    rcases hm with rfl | hm
    · omega
    · have := starts_mem_bounds h h.allocsize post (o + b.size) hpost x hm
      omega

/-- Postcondition of the split case of `myAlloc`: the found free block at
offset `o` is replaced by an allocated block of size `s` followed by a free
remainder, and the well-formedness facts carry over.  (No footer is written
for the remainder: myHeap.c:139-146 writes only the two headers.) -/
theorem alloc_split_post (h h' : Heap) (pre post : List Blk) (b : Blk)
    (o s : Int)
    (hpre : seg h 0 pre o = true)
    (hhdr : h.mem o = encHdr b) (h8 : b.size.tmod 8 = 0) (hbs : 8 ≤ b.size)
    (hpost : seg h (o + b.size) post h.allocsize = true)
    (hone : h.mem h.allocsize = 1)
    (ho0 : 0 ≤ o) (hodvd : (8:Int) ∣ o)
    (hs8 : s.tmod 8 = 0) (hsge : 8 ≤ s) (hlt : s < b.size)
    (halloc : b.alloc = false)
    (hpok : pOk true (pre ++ b :: post) = true)
    (heven : evenOutside h (pre ++ b :: post))
    (hend : o + b.size + sumSizes post = h.allocsize)
    (hpostnn : 0 ≤ sumSizes post)
    (hH : h' = wrH (wrH h o (s + (if b.prev then 2 else 0) + 1))
      (o + s) (b.size - s + 2)) :
    chainB h' 0 (pre ++ ⟨s, true, b.prev⟩ :: ⟨b.size - s, false, true⟩ :: post)
        = true ∧
      pOk true (pre ++ ⟨s, true, b.prev⟩ :: ⟨b.size - s, false, true⟩ :: post)
        = true ∧
      evenOutside h'
        (pre ++ ⟨s, true, b.prev⟩ :: ⟨b.size - s, false, true⟩ :: post) ∧
      h'.base = h.base ∧ h'.allocsize = h.allocsize := by
  have hsum : sumSizes pre = o := by
    have := seg_end h o pre 0 hpre; omega
  have hsdvd : (8:Int) ∣ s := Int.dvd_iff_tmod_eq_zero.mpr hs8
  have hbdvd : (8:Int) ∣ b.size := Int.dvd_iff_tmod_eq_zero.mpr h8
  have hnotpre : ∀ x ∈ starts 0 pre, x + 8 ≤ o := by
    intro x hx; exact (starts_mem_bounds h o pre 0 hpre x hx).2
  have hnotpost : ∀ x ∈ starts (o + b.size) post, o + b.size ≤ x := by
    intro x hx
    exact (starts_mem_bounds h h.allocsize post (o + b.size) hpost x hx).1
  have halc : h'.allocsize = h.allocsize := by rw [hH]; rfl
  have hbase : h'.base = h.base := by rw [hH]; rfl
  -- memory after the two writes
  have hm_o : h'.mem o = s + (if b.prev then 2 else 0) + 1 := by
    rw [hH, wrH_mem_ne _ _ _ _ (by omega), wrH_mem_eq]
  have hm_sp : h'.mem (o + s) = b.size - s + 2 := by
    rw [hH, wrH_mem_eq]
  have hm_other : ∀ j, j ≠ o → j ≠ o + s → h'.mem j = h.mem j := by
    intro j hj1 hj2
    rw [hH, wrH_mem_ne _ _ _ _ hj2, wrH_mem_ne _ _ _ _ hj1]
  -- seg of the prefix survives
  have hpre' : seg h' 0 pre o = true := by
    rw [hH, seg_wr, seg_wr]
    · exact hpre
    · intro hc; have := hnotpre o hc; omega
    · intro hc; have := hnotpre (o + s) hc; omega
  have hpost' : seg h' (o + b.size) post h.allocsize = true := by
    rw [hH, seg_wr, seg_wr]
    · exact hpost
    · intro hc; have := hnotpost o hc; omega
    · intro hc; have := hnotpost (o + s) hc; omega
  refine ⟨?_, ?_, ?_, hbase, halc⟩
  · apply chainB_of_parts
    · rw [halc, seg_append_iff]
      refine ⟨by rw [show (0:Int) + sumSizes pre = o from by omega]; exact hpre',
        ?_⟩
      rw [show (0:Int) + sumSizes pre = o from by omega, seg_cons_iff]
      refine ⟨by rw [hm_o]; simp [encHdr], by simpa using hs8, by simpa, ?_⟩
      rw [seg_cons_iff]
      refine ⟨by rw [hm_sp]; simp [encHdr], ?_, by simp; omega, ?_⟩
      · simp only []
        rw [Int.tmod_eq_emod (by omega) (by omega)]
        omega
      · rw [show o + s + (b.size - s) = o + b.size from by ring]
        exact hpost'
    · rw [halc, hm_other _ (by omega) (by omega)]
      exact hone
  · rw [pOk_append] at hpok ⊢
    rw [Bool.and_eq_true] at hpok ⊢
    refine ⟨hpok.1, ?_⟩
    have h2 := hpok.2
    simp only [pOk] at h2 ⊢
    rw [Bool.and_eq_true] at h2
    simp only [Bool.and_eq_true, beq_iff_eq]
    refine ⟨beq_iff_eq.mp h2.1, trivial, ?_⟩
    rw [halloc] at h2
    exact h2.2
  · intro j hj0 hjA hj8 hjs
    rw [halc] at hjA
    rw [starts_append, show (0:Int) + sumSizes pre = o from by omega] at hjs
    simp only [starts, List.mem_cons, List.mem_append, not_or] at hjs
    obtain ⟨hjpre, hjo, hjsp, hjpost⟩ := hjs
    rw [hm_other j hjo (by rw [show o + s = o + s from rfl] at hjsp; omega)]
    apply heven j hj0 hjA hj8
    rw [starts_append, show (0:Int) + sumSizes pre = o from by omega]
    simp only [starts, List.mem_cons, List.mem_append, not_or]
    refine ⟨hjpre, hjo, ?_⟩
    rw [show o + s + (b.size - s) = o + b.size from by ring] at hjpost
    exact hjpost

/-- Postcondition of the exact-fit case of `myAlloc` when the found block is
the last one: only its allocated bit is set (myHeap.c:147-152). -/
theorem alloc_exact_post_nil (h h' : Heap) (pre : List Blk) (b : Blk) (o : Int)
    (hpre : seg h 0 pre o = true)
    (hhdr : h.mem o = encHdr b) (h8 : b.size.tmod 8 = 0) (hbs : 8 ≤ b.size)
    (hpost : seg h (o + b.size) ([] : List Blk) h.allocsize = true)
    (hone : h.mem h.allocsize = 1)
    (ho0 : 0 ≤ o)
    (halloc : b.alloc = false)
    (hpok : pOk true (pre ++ [b]) = true)
    (heven : evenOutside h (pre ++ [b]))
    (hH : h' = wrH h o (h.mem o + 1)) :
    chainB h' 0 (pre ++ [⟨b.size, true, b.prev⟩]) = true ∧
      pOk true (pre ++ [⟨b.size, true, b.prev⟩]) = true ∧
      evenOutside h' (pre ++ [⟨b.size, true, b.prev⟩]) ∧
      h'.base = h.base ∧ h'.allocsize = h.allocsize := by
  have hsum : sumSizes pre = o := by
    have := seg_end h o pre 0 hpre; omega
  have hsp : o + b.size = h.allocsize := by
    rw [seg_nil_iff] at hpost; omega
  have hnotpre : ∀ x ∈ starts 0 pre, x + 8 ≤ o := by
    intro x hx; exact (starts_mem_bounds h o pre 0 hpre x hx).2
  have halc : h'.allocsize = h.allocsize := by rw [hH]; rfl
  have hbase : h'.base = h.base := by rw [hH]; rfl
  have hm_o : h'.mem o = encHdr b + 1 := by
    rw [hH, wrH_mem_eq, hhdr]
  have hm_other : ∀ j, j ≠ o → h'.mem j = h.mem j := by
    intro j hj1; rw [hH, wrH_mem_ne _ _ _ _ hj1]
  have hpre' : seg h' 0 pre o = true := by
    rw [hH, seg_wr]
    · exact hpre
    · intro hc; have := hnotpre o hc; omega
  refine ⟨?_, ?_, ?_, hbase, halc⟩
  · apply chainB_of_parts
    · rw [halc, seg_append_iff]
      refine ⟨by rw [show (0:Int) + sumSizes pre = o from by omega]; exact hpre',
        ?_⟩
      rw [show (0:Int) + sumSizes pre = o from by omega, seg_cons_iff]
      refine ⟨?_, by simpa using h8, by simpa using hbs, ?_⟩
      · rw [hm_o]
        simp [encHdr, halloc]
      · rw [seg_nil_iff]
        simp; omega
    · rw [halc, hm_other _ (by omega)]
      exact hone
  · rw [pOk_append] at hpok ⊢
    rw [Bool.and_eq_true] at hpok ⊢
    refine ⟨hpok.1, ?_⟩
    have h2 := hpok.2
    simp only [pOk, Bool.and_eq_true, beq_iff_eq] at h2 ⊢
    exact ⟨h2.1, trivial⟩
  · intro j hj0 hjA hj8 hjs
    rw [halc] at hjA
    rw [starts_append, show (0:Int) + sumSizes pre = o from by omega] at hjs
    simp only [starts, List.mem_cons, List.mem_append, not_or] at hjs
    obtain ⟨hjpre, hjo, _⟩ := hjs
    rw [hm_other j hjo]
    apply heven j hj0 hjA hj8
    rw [starts_append, show (0:Int) + sumSizes pre = o from by omega]
    simp only [starts, List.mem_cons, List.mem_append, not_or]
    exact ⟨hjpre, hjo, by simp⟩

/-- Postcondition of the exact-fit case of `myAlloc` when a block follows:
the allocated bit of the found block is set and the successor's
prev-allocated bit is set (myHeap.c:147-155). -/
theorem alloc_exact_post_cons (h h' : Heap) (pre post : List Blk) (b b2 : Blk)
    (o : Int)
    (hpre : seg h 0 pre o = true)
    (hhdr : h.mem o = encHdr b) (h8 : b.size.tmod 8 = 0) (hbs : 8 ≤ b.size)
    (hpost : seg h (o + b.size) (b2 :: post) h.allocsize = true)
    (hone : h.mem h.allocsize = 1)
    (ho0 : 0 ≤ o)
    (halloc : b.alloc = false)
    (hpok : pOk true (pre ++ b :: b2 :: post) = true)
    (heven : evenOutside h (pre ++ b :: b2 :: post))
    (hH : h' = wrH (wrH h o (h.mem o + 1)) (o + b.size)
      ((wrH h o (h.mem o + 1)).mem (o + b.size) + 2)) :
    chainB h' 0 (pre ++ ⟨b.size, true, b.prev⟩ ::
        ⟨b2.size, b2.alloc, true⟩ :: post) = true ∧
      pOk true (pre ++ ⟨b.size, true, b.prev⟩ ::
        ⟨b2.size, b2.alloc, true⟩ :: post) = true ∧
      evenOutside h' (pre ++ ⟨b.size, true, b.prev⟩ ::
        ⟨b2.size, b2.alloc, true⟩ :: post) ∧
      h'.base = h.base ∧ h'.allocsize = h.allocsize := by
  have hsum : sumSizes pre = o := by
    have := seg_end h o pre 0 hpre; omega
  rw [seg_cons_iff] at hpost
  obtain ⟨hhdr2, h82, hbs2, hpost⟩ := hpost
  have hend2 := seg_end h h.allocsize post (o + b.size + b2.size) hpost
  have hnn2 := seg_sum_nonneg h h.allocsize post (o + b.size + b2.size) hpost
  have hnotpre : ∀ x ∈ starts 0 pre, x + 8 ≤ o := by
    intro x hx; exact (starts_mem_bounds h o pre 0 hpre x hx).2
  have hnotpost : ∀ x ∈ starts (o + b.size + b2.size) post,
      o + b.size + b2.size ≤ x := by
    intro x hx
    exact (starts_mem_bounds h h.allocsize post (o + b.size + b2.size) hpost
      x hx).1
  have hb2prev : b2.prev = false := by
    rw [pOk_append, Bool.and_eq_true] at hpok
    have h2 := hpok.2
    simp only [pOk, Bool.and_eq_true, beq_iff_eq] at h2
    rw [halloc] at h2
    exact h2.2.1
  have halc : h'.allocsize = h.allocsize := by rw [hH]; rfl
  have hbase : h'.base = h.base := by rw [hH]; rfl
  have hm_o : h'.mem o = encHdr b + 1 := by
    rw [hH, wrH_mem_ne _ _ _ _ (by omega), wrH_mem_eq, hhdr]
  have hm_sp : h'.mem (o + b.size) = encHdr b2 + 2 := by
    rw [hH, wrH_mem_eq, wrH_mem_ne _ _ _ _ (by omega), hhdr2]
  have hm_other : ∀ j, j ≠ o → j ≠ o + b.size → h'.mem j = h.mem j := by
    intro j hj1 hj2
    rw [hH, wrH_mem_ne _ _ _ _ hj2, wrH_mem_ne _ _ _ _ hj1]
  have hpre' : seg h' 0 pre o = true := by
    rw [hH, seg_wr, seg_wr]
    · exact hpre
    · intro hc; have := hnotpre o hc; omega
    · intro hc; have := hnotpre (o + b.size) hc; omega
  have hpost' : seg h' (o + b.size + b2.size) post h.allocsize = true := by
    rw [hH, seg_wr, seg_wr]
    · exact hpost
    · intro hc; have := hnotpost o hc; omega
    · intro hc; have := hnotpost (o + b.size) hc; omega
  refine ⟨?_, ?_, ?_, hbase, halc⟩
  · apply chainB_of_parts
    · rw [halc, seg_append_iff]
      refine ⟨by rw [show (0:Int) + sumSizes pre = o from by omega]; exact hpre',
        ?_⟩
      rw [show (0:Int) + sumSizes pre = o from by omega, seg_cons_iff]
      refine ⟨?_, by simpa using h8, by simpa using hbs, ?_⟩
      · rw [hm_o]
        simp [encHdr, halloc]
      · rw [seg_cons_iff]
        refine ⟨?_, by simpa using h82, by simpa using hbs2, ?_⟩
        · rw [hm_sp]
          simp [encHdr, hb2prev]
          ring
        · simp only []
          exact hpost'
    · rw [halc, hm_other _ (by omega) (by omega)]
      exact hone
  · rw [pOk_append] at hpok ⊢
    rw [Bool.and_eq_true] at hpok ⊢
    refine ⟨hpok.1, ?_⟩
    have h2 := hpok.2
    simp only [pOk, Bool.and_eq_true, beq_iff_eq] at h2 ⊢
    rw [halloc] at h2
    exact ⟨h2.1, trivial, h2.2.2⟩
  · intro j hj0 hjA hj8 hjs
    rw [halc] at hjA
    rw [starts_append, show (0:Int) + sumSizes pre = o from by omega] at hjs
    simp only [starts, List.mem_cons, List.mem_append, not_or] at hjs
    obtain ⟨hjpre, hjo, hjsp, hjpost⟩ := hjs
    rw [hm_other j hjo hjsp]
    apply heven j hj0 hjA hj8
    rw [starts_append, show (0:Int) + sumSizes pre = o from by omega]
    simp only [starts, List.mem_cons, List.mem_append, not_or]
    exact ⟨hjpre, hjo, hjsp, hjpost⟩

theorem tmod_two_ne_one (x : Int) (hx : x.tmod 2 = 0) : x ≠ 1 := by
  have : (2:Int) ∣ x := Int.dvd_iff_tmod_eq_zero.mpr hx
  omega

/-- Full characterization of a successful `myAlloc` call on a well-formed
heap: the scan found the first smallest sufficiently large free block, and
the heap is rewritten into a well-formed chain in which that block is
allocated (split in two when strictly larger than the rounded size). -/
theorem myAlloc_success (fuel : Nat) (h : Heap) (n r : Int) (h' : Heap)
    (hinv : HeapInv h) (hal : myAlloc fuel h n = some (some r, h')) :
    ∃ (bs : List Blk) (st : ScanSt) (b : Blk),
      chainB h 0 bs = true ∧ pOk true bs = true ∧ evenOutside h bs ∧
      scanLoop h (roundedSize n) fuel 0 ⟨-1, 0, 0⟩ = some st ∧
      (st.block, b) ∈ offBlks 0 bs ∧
      st.memoryAvailable = b.size ∧
      st.previousBlock = (if b.prev then 2 else 0) ∧
      b.alloc = false ∧ 0 < n ∧ roundedSize n ≤ b.size ∧
      b.size.tmod 8 = 0 ∧ 8 ≤ b.size ∧
      r = h.base + st.block + 4 ∧ 0 ≤ st.block ∧ (8:Int) ∣ st.block ∧
      (∀ ob' ∈ offBlks 0 bs, isCand (roundedSize n) ob' →
        b.size ≤ ob'.2.size ∧ (ob'.2.size = b.size → st.block ≤ ob'.1)) ∧
      (∃ bs', chainB h' 0 bs' = true ∧ pOk true bs' = true ∧
        evenOutside h' bs' ∧ h'.base = h.base ∧
        h'.allocsize = h.allocsize) ∧
      ((roundedSize n < b.size ∧
        h' = wrH (wrH h st.block
            (roundedSize n + (if b.prev then 2 else 0) + 1))
          (st.block + roundedSize n) (b.size - roundedSize n + 2)) ∨
       (b.size = roundedSize n ∧
        (∀ j, j ≠ st.block → j ≠ st.block + roundedSize n →
          h'.mem j = h.mem j))) := by
  obtain ⟨hb8, hb0, hA0, hA8, bs, hch, hpok, heven⟩ := hinv
  obtain ⟨hn, hsz, st, hscan, hr, hle, hdisj⟩ :=
    myAlloc_some_elim fuel h n r h' hal
  have hspos : 0 < roundedSize n := by have := roundedSize_ge n hn; omega
  have hbf := scan_bestFit h (roundedSize n) hspos bs hch fuel st hscan
  rcases hbf with ⟨hst, _⟩ | ⟨ob, hmem, hcand, hst, hmin, htie⟩
  · rw [hst] at hle
    simp at hle
    omega
  · subst hst
    simp only [] at hr hle hdisj ⊢
    obtain ⟨pre, post, hbs, ho, hpre, hhdr, h8, hbsz, hpost, hone, ho0,
      hodvd, hend, hpostnn⟩ := chain_found h bs hch ob.1 ob.2 hmem
    refine ⟨bs, ⟨ob.2.size, ob.1, if ob.2.prev then 2 else 0⟩, ob.2,
      hch, hpok, heven, hscan, by simpa using hmem, rfl, rfl,
      hcand.1, hn, hcand.2, h8, hbsz, by simpa using hr, by simpa using ho0,
      by simpa using hodvd, ?_, ?_⟩
    · intro ob' hm' hc'
      exact ⟨hmin ob' hm' hc', fun hsz' => htie ob' hm' hc' hsz'⟩
    · have hs8 := roundedSize_tmod n hn
      have hsge := roundedSize_ge n hn
      have hsdvd : (8:Int) ∣ roundedSize n := Int.dvd_iff_tmod_eq_zero.mpr hs8
      have hbdvd : (8:Int) ∣ ob.2.size := Int.dvd_iff_tmod_eq_zero.mpr h8
      rcases hdisj with ⟨hlt, hcase⟩ | ⟨heq, hcase⟩
      · -- split case
        have hspne : (wrH h ob.1
            (roundedSize n + (if ob.2.prev then 2 else 0) + 1)).mem
            (ob.1 + roundedSize n) ≠ 1 := by
          rw [wrH_mem_ne _ _ _ _ (by omega)]
          apply tmod_two_ne_one
          apply interior_even h pre post ob.2 ob.1 hpre hpost
            (hbs ▸ heven) hend hpostnn
          · omega
          · omega
          · omega
          · omega
        rcases hcase with ⟨hsp1, _⟩ | ⟨_, hH⟩
        · exact absurd hsp1 hspne
        · have hpostfacts := alloc_split_post h h' pre post ob.2 ob.1
            (roundedSize n) hpre hhdr h8 hbsz hpost hone ho0 hodvd
            hs8 hsge hlt hcand.1 (hbs ▸ hpok) (hbs ▸ heven) hend hpostnn
            (by simpa using hH)
          refine ⟨⟨_, hpostfacts.1, hpostfacts.2.1, hpostfacts.2.2.1,
            hpostfacts.2.2.2.1, hpostfacts.2.2.2.2⟩, Or.inl ⟨hlt, ?_⟩⟩
          simpa using hH
      · -- exact-fit case
        have hbeq : ob.2.size = roundedSize n := heq
        cases hpostc : post with
        | nil =>
          subst hpostc
          have hspone : (wrH h ob.1 (h.mem ob.1 + 1)).mem
              (ob.1 + roundedSize n) = 1 := by
            rw [wrH_mem_ne _ _ _ _ (by omega), ← hbeq]
            rw [seg_nil_iff] at hpost
            rw [show ob.1 + ob.2.size = h.allocsize from by omega]
            exact hone
          rcases hcase with ⟨_, hH⟩ | ⟨hne, _⟩
          · have hpostfacts := alloc_exact_post_nil h h' pre ob.2 ob.1
              hpre hhdr h8 hbsz hpost hone ho0 hcand.1 (hbs ▸ hpok)
              (hbs ▸ heven) hH
            refine ⟨⟨_, hpostfacts.1, hpostfacts.2.1, hpostfacts.2.2.1,
              hpostfacts.2.2.2.1, hpostfacts.2.2.2.2⟩, Or.inr ⟨hbeq, ?_⟩⟩
            intro j hj1 hj2
            rw [hH, wrH_mem_ne _ _ _ _ hj1]
          · exact absurd hspone hne
        | cons b2 post' =>
          subst hpostc
          have hhdr2 : h.mem (ob.1 + ob.2.size) = encHdr b2 := by
            rw [seg_cons_iff] at hpost
            exact hpost.1
          have hbs2 : 8 ≤ b2.size := by
            rw [seg_cons_iff] at hpost
            exact hpost.2.2.1
          have hspone : (wrH h ob.1 (h.mem ob.1 + 1)).mem
              (ob.1 + roundedSize n) ≠ 1 := by
            rw [wrH_mem_ne _ _ _ _ (by omega), ← hbeq, hhdr2]
            exact encHdr_ne_one b2 hbs2
          rcases hcase with ⟨hsp1, _⟩ | ⟨_, hH⟩
          · exact absurd hsp1 hspone
          · rw [← hbeq] at hH
            have hpostfacts := alloc_exact_post_cons h h' pre post' ob.2 b2
              ob.1 hpre hhdr h8 hbsz hpost hone ho0 hcand.1 (hbs ▸ hpok)
              (hbs ▸ heven) hH
            refine ⟨⟨_, hpostfacts.1, hpostfacts.2.1, hpostfacts.2.2.1,
              hpostfacts.2.2.2.1, hpostfacts.2.2.2.2⟩, Or.inr ⟨hbeq, ?_⟩⟩
            intro j hj1 hj2
            rw [← hbeq] at hj2
            rw [hH, wrH_mem_ne _ _ _ _ hj2, wrH_mem_ne _ _ _ _ hj1]

/-! ## `myFree`: failure frames and success postcondition -/

theorem myFree_res (h : Heap) (ptr : Int) :
    myFree h ptr = (-1, h) ∨ (myFree h ptr).1 = 0 := by
  unfold myFree
  split_ifs with hc1 hc2 hc3
  · left; rfl
  · left; rfl
  · left; rfl
  · simp only []
    split_ifs with hc4 hc5
    · left; rfl
    · right; rfl
    · right; rfl

theorem myFree_null (h : Heap) : myFree h 0 = (-1, h) := by
  unfold myFree
  simp

theorem myFree_misaligned (h : Heap) (ptr : Int) (hm : ptr % 8 ≠ 0) :
    myFree h ptr = (-1, h) := by
  unfold myFree
  split_ifs <;> rfl

theorem myFree_below (h : Heap) (ptr : Int) (hb : ptr < h.base) :
    myFree h ptr = (-1, h) := by
  unfold myFree
  split_ifs <;> rfl

theorem myFree_not_alloc (h : Heap) (ptr : Int)
    (h4 : (h.mem (ptr - h.base - 4)).tmod 2 ≠ 1) : myFree h ptr = (-1, h) := by
  unfold myFree
  split_ifs with hc1 hc2 hc3
  · rfl
  · rfl
  · rfl
  · simp only []
    rw [if_pos h4]

/-- Any byte offset covered by a chain segment lies in one of its blocks. -/
theorem seg_locate (h : Heap) (e : Int) :
    ∀ bs off, seg h off bs e = true →
      ∀ j, off ≤ j → j < e →
        ∃ pre b post, bs = pre ++ b :: post ∧
          off + sumSizes pre ≤ j ∧ j < off + sumSizes pre + b.size := by
  intro bs
  induction bs with
  | nil =>
    intro off hs j hj1 hj2
    rw [seg_nil_iff] at hs
    omega
  | cons b bs ih =>
    intro off hs j hj1 hj2
    rw [seg_cons_iff] at hs
    obtain ⟨h1, h2, h3, h4⟩ := hs
    by_cases hj : j < off + b.size
    · exact ⟨[], b, bs, rfl, by simp [sumSizes]; omega,
        by simp [sumSizes]; omega⟩
    · obtain ⟨pre, b', post, hbs, hlo, hhi⟩ :=
        ih (off + b.size) h4 j (by omega) hj2
      exact ⟨b :: pre, b', post, by simp [hbs], by simp [sumSizes]; omega,
        by simp [sumSizes]; omega⟩

theorem myFree_succ_elim (h : Heap) (ptr : Int)
    (hc1 : ptr ≠ 0) (hc2 : ptr % 8 = 0) (hc3 : h.base ≤ ptr)
    (hc4 : (h.mem (ptr - h.base - 4)).tmod 2 = 1) :
    (myFree h ptr).1 = 0 ∧
    (myFree h ptr).2 =
      (if (wrH (wrH h (ptr - h.base - 4) (h.mem (ptr - h.base - 4) - 1))
            (ptr - h.base - 4 +
              ((wrH h (ptr - h.base - 4)
                (h.mem (ptr - h.base - 4) - 1)).mem (ptr - h.base - 4)).tdiv
                8 * 8 - 4)
            (((wrH h (ptr - h.base - 4)
              (h.mem (ptr - h.base - 4) - 1)).mem (ptr - h.base - 4)).tdiv
              8 * 8)).mem
          (ptr - h.base - 4 +
            ((wrH (wrH h (ptr - h.base - 4) (h.mem (ptr - h.base - 4) - 1))
              (ptr - h.base - 4 +
                ((wrH h (ptr - h.base - 4)
                  (h.mem (ptr - h.base - 4) - 1)).mem
                  (ptr - h.base - 4)).tdiv 8 * 8 - 4)
              (((wrH h (ptr - h.base - 4)
                (h.mem (ptr - h.base - 4) - 1)).mem
                (ptr - h.base - 4)).tdiv 8 * 8)).mem
              (ptr - h.base - 4)).tdiv 8 * 8) ≠ 1 then
        wrH (wrH (wrH h (ptr - h.base - 4) (h.mem (ptr - h.base - 4) - 1))
            (ptr - h.base - 4 +
              ((wrH h (ptr - h.base - 4)
                (h.mem (ptr - h.base - 4) - 1)).mem (ptr - h.base - 4)).tdiv
                8 * 8 - 4)
            (((wrH h (ptr - h.base - 4)
              (h.mem (ptr - h.base - 4) - 1)).mem (ptr - h.base - 4)).tdiv
              8 * 8))
          (ptr - h.base - 4 +
            ((wrH (wrH h (ptr - h.base - 4) (h.mem (ptr - h.base - 4) - 1))
              (ptr - h.base - 4 +
                ((wrH h (ptr - h.base - 4)
                  (h.mem (ptr - h.base - 4) - 1)).mem
                  (ptr - h.base - 4)).tdiv 8 * 8 - 4)
              (((wrH h (ptr - h.base - 4)
                (h.mem (ptr - h.base - 4) - 1)).mem
                (ptr - h.base - 4)).tdiv 8 * 8)).mem
              (ptr - h.base - 4)).tdiv 8 * 8)
          ((wrH (wrH h (ptr - h.base - 4) (h.mem (ptr - h.base - 4) - 1))
              (ptr - h.base - 4 +
                ((wrH h (ptr - h.base - 4)
                  (h.mem (ptr - h.base - 4) - 1)).mem
                  (ptr - h.base - 4)).tdiv 8 * 8 - 4)
              (((wrH h (ptr - h.base - 4)
                (h.mem (ptr - h.base - 4) - 1)).mem
                (ptr - h.base - 4)).tdiv 8 * 8)).mem
            (ptr - h.base - 4 +
              ((wrH (wrH h (ptr - h.base - 4)
                (h.mem (ptr - h.base - 4) - 1))
                (ptr - h.base - 4 +
                  ((wrH h (ptr - h.base - 4)
                    (h.mem (ptr - h.base - 4) - 1)).mem
                    (ptr - h.base - 4)).tdiv 8 * 8 - 4)
                (((wrH h (ptr - h.base - 4)
                  (h.mem (ptr - h.base - 4) - 1)).mem
                  (ptr - h.base - 4)).tdiv 8 * 8)).mem
                (ptr - h.base - 4)).tdiv 8 * 8) - 2)
      else
        wrH (wrH h (ptr - h.base - 4) (h.mem (ptr - h.base - 4) - 1))
          (ptr - h.base - 4 +
            ((wrH h (ptr - h.base - 4)
              (h.mem (ptr - h.base - 4) - 1)).mem (ptr - h.base - 4)).tdiv
              8 * 8 - 4)
          (((wrH h (ptr - h.base - 4)
            (h.mem (ptr - h.base - 4) - 1)).mem (ptr - h.base - 4)).tdiv
            8 * 8)) := by
  unfold myFree
  rw [if_neg hc1, if_neg (by omega), if_neg (by omega)]
  simp only []
  rw [if_neg (by omega)]
  constructor
  · split <;> rfl
  · rw [apply_ite Prod.snd]

/-- Postcondition of a successful `myFree` on the last block: allocated bit
cleared, footer written inside the block (myHeap.c:184-189), end mark left
as the successor. -/
theorem free_post_nil (h h' : Heap) (pre : List Blk) (b : Blk) (o : Int)
    (hpre : seg h 0 pre o = true)
    (hhdr : h.mem o = encHdr b) (h8 : b.size.tmod 8 = 0) (hbs : 8 ≤ b.size)
    (hpost : seg h (o + b.size) ([] : List Blk) h.allocsize = true)
    (hone : h.mem h.allocsize = 1)
    (ho0 : 0 ≤ o) (hodvd : (8:Int) ∣ o)
    (halloc : b.alloc = true)
    (hpok : pOk true (pre ++ [b]) = true)
    (heven : evenOutside h (pre ++ [b]))
    (hH : h' = wrH (wrH h o (encHdr b - 1)) (o + b.size - 4) b.size) :
    chainB h' 0 (pre ++ [⟨b.size, false, b.prev⟩]) = true ∧
      pOk true (pre ++ [⟨b.size, false, b.prev⟩]) = true ∧
      evenOutside h' (pre ++ [⟨b.size, false, b.prev⟩]) ∧
      h'.base = h.base ∧ h'.allocsize = h.allocsize ∧
      h'.mem o = encHdr ⟨b.size, false, b.prev⟩ := by
  have hsum : sumSizes pre = o := by
    have := seg_end h o pre 0 hpre; omega
  have hsp : o + b.size = h.allocsize := by
    rw [seg_nil_iff] at hpost; omega
  have hbdvd : (8:Int) ∣ b.size := Int.dvd_iff_tmod_eq_zero.mpr h8
  have hnotpre : ∀ x ∈ starts 0 pre, x + 8 ≤ o := by
    intro x hx; exact (starts_mem_bounds h o pre 0 hpre x hx).2
  have hprestart : ∀ x ∈ starts 0 pre, (8:Int) ∣ x :=
    starts_mem_dvd h o pre 0 hpre (by omega)
  have halc : h'.allocsize = h.allocsize := by rw [hH]; rfl
  have hbase : h'.base = h.base := by rw [hH]; rfl
  have hm_o : h'.mem o = encHdr ⟨b.size, false, b.prev⟩ := by
    rw [hH, wrH_mem_ne _ _ _ _ (by omega), wrH_mem_eq]
    simp [encHdr, halloc]
  have hm_other : ∀ j, j ≠ o → j ≠ o + b.size - 4 → h'.mem j = h.mem j := by
    intro j hj1 hj2
    rw [hH, wrH_mem_ne _ _ _ _ hj2, wrH_mem_ne _ _ _ _ hj1]
  have hpre' : seg h' 0 pre o = true := by
    rw [hH, seg_wr, seg_wr]
    · exact hpre
    · intro hc; have := hnotpre o hc; omega
    · intro hc
      have h1 := hnotpre _ hc
      have h2 := hprestart _ hc
      omega
  refine ⟨?_, ?_, ?_, hbase, halc, hm_o⟩
  · apply chainB_of_parts
    · rw [halc, seg_append_iff]
      refine ⟨by rw [show (0:Int) + sumSizes pre = o from by omega]; exact hpre',
        ?_⟩
      rw [show (0:Int) + sumSizes pre = o from by omega, seg_cons_iff]
      refine ⟨hm_o, by simpa using h8, by simpa using hbs, ?_⟩
      rw [seg_nil_iff]
      simp; omega
    · rw [halc, hm_other _ (by omega) (by omega)]
      exact hone
  · rw [pOk_append] at hpok ⊢
    rw [Bool.and_eq_true] at hpok ⊢
    refine ⟨hpok.1, ?_⟩
    have h2 := hpok.2
    simp only [pOk, Bool.and_eq_true, beq_iff_eq] at h2 ⊢
    exact ⟨h2.1, trivial⟩
  · intro j hj0 hjA hj8 hjs
    rw [halc] at hjA
    rw [starts_append, show (0:Int) + sumSizes pre = o from by omega] at hjs
    simp only [starts, List.mem_cons, List.mem_append, not_or] at hjs
    obtain ⟨hjpre, hjo, _⟩ := hjs
    have hjdvd : (8:Int) ∣ j := Int.dvd_iff_tmod_eq_zero.mpr hj8
    rw [hm_other j hjo (by omega)]
    apply heven j hj0 hjA hj8
    rw [starts_append, show (0:Int) + sumSizes pre = o from by omega]
    simp only [starts, List.mem_cons, List.mem_append, not_or]
    exact ⟨hjpre, hjo, by simp⟩

/-- Postcondition of a successful `myFree` when a block follows: allocated
bit cleared, footer written, successor's prev-allocated bit cleared
(myHeap.c:184-194). -/
theorem free_post_cons (h h' : Heap) (pre post : List Blk) (b b2 : Blk)
    (o : Int)
    (hpre : seg h 0 pre o = true)
    (hhdr : h.mem o = encHdr b) (h8 : b.size.tmod 8 = 0) (hbs : 8 ≤ b.size)
    (hpost : seg h (o + b.size) (b2 :: post) h.allocsize = true)
    (hone : h.mem h.allocsize = 1)
    (ho0 : 0 ≤ o) (hodvd : (8:Int) ∣ o)
    (halloc : b.alloc = true)
    (hpok : pOk true (pre ++ b :: b2 :: post) = true)
    (heven : evenOutside h (pre ++ b :: b2 :: post))
    (hH : h' = wrH (wrH (wrH h o (encHdr b - 1)) (o + b.size - 4) b.size)
      (o + b.size) (encHdr b2 - 2)) :
    chainB h' 0 (pre ++ ⟨b.size, false, b.prev⟩ ::
        ⟨b2.size, b2.alloc, false⟩ :: post) = true ∧
      pOk true (pre ++ ⟨b.size, false, b.prev⟩ ::
        ⟨b2.size, b2.alloc, false⟩ :: post) = true ∧
      evenOutside h' (pre ++ ⟨b.size, false, b.prev⟩ ::
        ⟨b2.size, b2.alloc, false⟩ :: post) ∧
      h'.base = h.base ∧ h'.allocsize = h.allocsize ∧
      h'.mem o = encHdr ⟨b.size, false, b.prev⟩ := by
  have hsum : sumSizes pre = o := by
    have := seg_end h o pre 0 hpre; omega
  rw [seg_cons_iff] at hpost
  obtain ⟨hhdr2, h82, hbs2, hpost⟩ := hpost
  have hend2 := seg_end h h.allocsize post (o + b.size + b2.size) hpost
  have hnn2 := seg_sum_nonneg h h.allocsize post (o + b.size + b2.size) hpost
  have hbdvd : (8:Int) ∣ b.size := Int.dvd_iff_tmod_eq_zero.mpr h8
  have hb2dvd : (8:Int) ∣ b2.size := Int.dvd_iff_tmod_eq_zero.mpr h82
  have hnotpre : ∀ x ∈ starts 0 pre, x + 8 ≤ o := by
    intro x hx; exact (starts_mem_bounds h o pre 0 hpre x hx).2
  have hprestart : ∀ x ∈ starts 0 pre, (8:Int) ∣ x :=
    starts_mem_dvd h o pre 0 hpre (by omega)
  have hnotpost : ∀ x ∈ starts (o + b.size + b2.size) post,
      o + b.size + b2.size ≤ x ∧ (8:Int) ∣ x := by
    intro x hx
    refine ⟨(starts_mem_bounds h h.allocsize post (o + b.size + b2.size)
      hpost x hx).1, ?_⟩
    exact starts_mem_dvd h h.allocsize post (o + b.size + b2.size) hpost
      (by exact Dvd.dvd.add (Dvd.dvd.add hodvd hbdvd) hb2dvd) x hx
  have hb2prev : b2.prev = true := by
    rw [pOk_append, Bool.and_eq_true] at hpok
    have h2 := hpok.2
    simp only [pOk, Bool.and_eq_true, beq_iff_eq] at h2
    rw [halloc] at h2
    exact h2.2.1
  have halc : h'.allocsize = h.allocsize := by rw [hH]; rfl
  have hbase : h'.base = h.base := by rw [hH]; rfl
  have hm_o : h'.mem o = encHdr ⟨b.size, false, b.prev⟩ := by
    rw [hH, wrH_mem_ne _ _ _ _ (by omega), wrH_mem_ne _ _ _ _ (by omega),
      wrH_mem_eq]
    simp [encHdr, halloc]
  have hm_sp : h'.mem (o + b.size) = encHdr ⟨b2.size, b2.alloc, false⟩ := by
    rw [hH, wrH_mem_eq]
    simp [encHdr, hb2prev]
    ring
  have hm_other : ∀ j, j ≠ o → j ≠ o + b.size - 4 → j ≠ o + b.size →
      h'.mem j = h.mem j := by
    intro j hj1 hj2 hj3
    rw [hH, wrH_mem_ne _ _ _ _ hj3, wrH_mem_ne _ _ _ _ hj2,
      wrH_mem_ne _ _ _ _ hj1]
  have hpre' : seg h' 0 pre o = true := by
    rw [hH, seg_wr, seg_wr, seg_wr]
    · exact hpre
    · intro hc; have := hnotpre o hc; omega
    · intro hc
      have h1 := hnotpre _ hc
      have h2 := hprestart _ hc
      omega
    · intro hc; have := hnotpre _ hc; omega
  have hpost' : seg h' (o + b.size + b2.size) post h.allocsize = true := by
    rw [hH, seg_wr, seg_wr, seg_wr]
    · exact hpost
    · intro hc; have := hnotpost _ hc; omega
    · intro hc
      have := hnotpost _ hc
      omega
    · intro hc; have := hnotpost _ hc; omega
  refine ⟨?_, ?_, ?_, hbase, halc, hm_o⟩
  · apply chainB_of_parts
    · rw [halc, seg_append_iff]
      refine ⟨by rw [show (0:Int) + sumSizes pre = o from by omega]; exact hpre',
        ?_⟩
      rw [show (0:Int) + sumSizes pre = o from by omega, seg_cons_iff]
      refine ⟨hm_o, by simpa using h8, by simpa using hbs, ?_⟩
      rw [seg_cons_iff]
      refine ⟨hm_sp, by simpa using h82, by simpa using hbs2, ?_⟩
      simp only []
      exact hpost'
    · rw [halc, hm_other _ (by omega) (by omega) (by omega)]
      exact hone
  · rw [pOk_append] at hpok ⊢
    rw [Bool.and_eq_true] at hpok ⊢
    refine ⟨hpok.1, ?_⟩
    have h2 := hpok.2
    simp only [pOk, Bool.and_eq_true, beq_iff_eq] at h2 ⊢
    rw [halloc] at h2
    exact ⟨h2.1, trivial, h2.2.2⟩
  · intro j hj0 hjA hj8 hjs
    rw [halc] at hjA
    rw [starts_append, show (0:Int) + sumSizes pre = o from by omega] at hjs
    simp only [starts, List.mem_cons, List.mem_append, not_or] at hjs
    obtain ⟨hjpre, hjo, hjsp, hjpost⟩ := hjs
    have hjdvd : (8:Int) ∣ j := Int.dvd_iff_tmod_eq_zero.mpr hj8
    rw [hm_other j hjo (by omega) hjsp]
    apply heven j hj0 hjA hj8
    rw [starts_append, show (0:Int) + sumSizes pre = o from by omega]
    simp only [starts, List.mem_cons, List.mem_append, not_or]
    exact ⟨hjpre, hjo, hjsp, hjpost⟩

/-- A `myFree` call whose implied header is not past the arena either fails
and leaves the heap unchanged, or succeeds on an allocated block of the
chain and re-establishes the invariant with that block freed. -/
theorem myFree_wf (h : Heap) (ptr : Int) (hinv : HeapInv h)
    (hin : ptr - h.base - 4 < h.allocsize ∨ (myFree h ptr).1 = -1) :
    myFree h ptr = (-1, h) ∨
    ((myFree h ptr).1 = 0 ∧ HeapInv (myFree h ptr).2 ∧
      (myFree h ptr).2.base = h.base ∧
      (myFree h ptr).2.allocsize = h.allocsize ∧
      ((myFree h ptr).2.mem (ptr - h.base - 4)).tmod 2 = 0) := by
  obtain ⟨hb8, hb0, hA0, hA8, bs, hch, hpok, heven⟩ := hinv
  by_cases hc1 : ptr = 0
  · subst hc1; exact Or.inl (myFree_null h)
  by_cases hc2 : ptr % 8 = 0
  swap
  · exact Or.inl (myFree_misaligned h ptr hc2)
  by_cases hc3 : ptr < h.base
  · exact Or.inl (myFree_below h ptr hc3)
  by_cases hc4 : (h.mem (ptr - h.base - 4)).tmod 2 = 1
  swap
  · exact Or.inl (myFree_not_alloc h ptr hc4)
  obtain ⟨hfst, hsnd⟩ := myFree_succ_elim h ptr hc1 hc2 (by omega) hc4
  have hcur0 : 0 ≤ ptr - h.base - 4 := by omega
  have hcurd : (8:Int) ∣ (ptr - h.base - 4) := by omega
  have hcurA : ptr - h.base - 4 < h.allocsize := by
    rcases hin with hin | hin
    · exact hin
    · rw [hfst] at hin; omega
  obtain ⟨hseg, hone⟩ := chainB_parts h bs hch
  obtain ⟨pre, b, post, hbs, hlo, hhi⟩ :=
    seg_locate h h.allocsize bs 0 hseg (ptr - h.base - 4) hcur0 hcurA
  subst hbs
  rw [seg_append_iff] at hseg
  obtain ⟨hpre, hrest⟩ := hseg
  rw [seg_cons_iff] at hrest
  obtain ⟨hhdr, h8, hbsz, hpost⟩ := hrest
  rw [show (0:Int) + sumSizes pre = sumSizes pre from by omega] at hhdr hpost hpre
  have hodvd : (8:Int) ∣ sumSizes pre := by
    have := seg_sum_dvd h (sumSizes pre) pre 0 hpre
    omega
  by_cases hco : ptr - h.base - 4 = sumSizes pre
  swap
  · -- the pointer lands strictly inside a block: its word is even
    exfalso
    have heq := interior_even h pre post b (sumSizes pre) hpre hpost heven
      (by have := seg_end h h.allocsize post (sumSizes pre + b.size) hpost
          have := seg_sum_nonneg h h.allocsize post (sumSizes pre + b.size)
            hpost
          omega)
      (seg_sum_nonneg h h.allocsize post (sumSizes pre + b.size) hpost)
      (ptr - h.base - 4) hcur0 (by omega) (by omega) hcurd
    omega
  · -- header of a chain block: it must be allocated, and the free succeeds
    rw [hco] at hsnd hc4
    rw [hhdr, encHdr_tmod_two b h8 hbsz] at hc4
    have halloc : b.alloc = true := by
      rcases hb : b.alloc
      · rw [hb] at hc4; simp at hc4
      · rfl
    have hbF8 : (Blk.mk b.size false b.prev).size.tmod 8 = 0 := by simpa using h8
    have hbFs : 8 ≤ (Blk.mk b.size false b.prev).size := by simpa using hbsz
    have hv : h.mem (sumSizes pre) - 1 = encHdr ⟨b.size, false, b.prev⟩ := by
      rw [hhdr]
      simp [encHdr, halloc]
    have htd : (h.mem (sumSizes pre) - 1).tdiv 8 * 8 = b.size := by
      rw [hv]
      simpa using encHdr_tdiv_eight ⟨b.size, false, b.prev⟩ hbF8 hbFs
    rw [show ptr - h.base - 4 = sumSizes pre from hco]
    simp only [wrH_mem_eq] at hsnd
    rw [htd] at hsnd
    have hm2 : (wrH (wrH h (sumSizes pre) (h.mem (sumSizes pre) - 1))
        (sumSizes pre + b.size - 4) b.size).mem (sumSizes pre) =
        h.mem (sumSizes pre) - 1 := by
      rw [wrH_mem_ne _ _ _ _ (by omega), wrH_mem_eq]
    rw [hm2, htd] at hsnd
    cases post with
    | nil =>
      have hsp : sumSizes pre + b.size = h.allocsize := by
        rw [seg_nil_iff] at hpost; omega
      have hm3 : (wrH (wrH h (sumSizes pre) (h.mem (sumSizes pre) - 1))
          (sumSizes pre + b.size - 4) b.size).mem (sumSizes pre + b.size)
          = 1 := by
        rw [wrH_mem_ne _ _ _ _ (by omega), wrH_mem_ne _ _ _ _ (by omega), hsp]
        exact hone
      rw [hm3] at hsnd
      rw [if_neg (by simp)] at hsnd
      rw [show h.mem (sumSizes pre) - 1 = encHdr b - 1 from by rw [hhdr]] at hsnd
      have hpf := free_post_nil h (myFree h ptr).2 pre b (sumSizes pre)
        hpre hhdr h8 hbsz hpost hone (by omega) hodvd halloc hpok heven hsnd
      refine Or.inr ⟨hfst, ?_, hpf.2.2.2.1, hpf.2.2.2.2.1, ?_⟩
      · exact ⟨hpf.2.2.2.1 ▸ hb8, hpf.2.2.2.1 ▸ hb0,
          hpf.2.2.2.2.1 ▸ hA0, hpf.2.2.2.2.1 ▸ hA8,
          _, hpf.1, hpf.2.1, hpf.2.2.1⟩
      · rw [hpf.2.2.2.2.2, encHdr_tmod_two _ hbF8 hbFs]
        simp
    | cons b2 post' =>
      have hhdr2 : h.mem (sumSizes pre + b.size) = encHdr b2 := by
        rw [seg_cons_iff] at hpost
        exact hpost.1
      have hbs2 : 8 ≤ b2.size := by
        rw [seg_cons_iff] at hpost
        exact hpost.2.2.1
      have hm3 : (wrH (wrH h (sumSizes pre) (h.mem (sumSizes pre) - 1))
          (sumSizes pre + b.size - 4) b.size).mem (sumSizes pre + b.size)
          = encHdr b2 := by
        rw [wrH_mem_ne _ _ _ _ (by omega), wrH_mem_ne _ _ _ _ (by omega),
          hhdr2]
      rw [hm3] at hsnd
      rw [if_pos (encHdr_ne_one b2 hbs2)] at hsnd
      rw [show h.mem (sumSizes pre) - 1 = encHdr b - 1 from by rw [hhdr]] at hsnd
      have hpf := free_post_cons h (myFree h ptr).2 pre post' b b2
        (sumSizes pre) hpre hhdr h8 hbsz hpost hone (by omega) hodvd halloc
        hpok heven hsnd
      refine Or.inr ⟨hfst, ?_, hpf.2.2.2.1, hpf.2.2.2.2.1, ?_⟩
      · exact ⟨hpf.2.2.2.1 ▸ hb8, hpf.2.2.2.1 ▸ hb0,
          hpf.2.2.2.2.1 ▸ hA0, hpf.2.2.2.2.1 ▸ hA8,
          _, hpf.1, hpf.2.1, hpf.2.2.1⟩
      · rw [hpf.2.2.2.2.2, encHdr_tmod_two _ hbF8 hbFs]
        simp

/-! ## `coalesce`: one iteration, by cases -/

theorem coalStep_alloc (f : Nat) (h : Heap) (v : Int) (b : Blk)
    (hmem : h.mem v = encHdr b) (h8 : b.size.tmod 8 = 0) (hbs : 8 ≤ b.size)
    (halloc : b.alloc = true) :
    coalesceLoop (f + 1) h v = coalesceLoop f h (v + b.size) := by
  have htm := encHdr_tmod_two b h8 hbs
  have htd := encHdr_tdiv_eight b h8 hbs
  rw [halloc] at htm
  simp only [coalesceLoop, hmem, if_neg (encHdr_ne_one b hbs), htm, htd]
  norm_num

theorem coalStep_free_noMerge (f : Nat) (h : Heap) (v : Int) (b : Blk)
    (hmem : h.mem v = encHdr b) (h8 : b.size.tmod 8 = 0) (hbs : 8 ≤ b.size)
    (halloc : b.alloc = false) (hprev : b.prev = true)
    (hnext : (h.mem (v + b.size)).tmod 2 = 1) :
    coalesceLoop (f + 1) h v = coalesceLoop f h (v + b.size) := by
  have hne := encHdr_ne_one b hbs
  have htd := encHdr_tdiv_eight b h8 hbs
  have htm0 : (encHdr b).tmod 2 = 0 := by
    simp [encHdr_tmod_two b h8 hbs, halloc]
  have htm8v : (encHdr b).tmod 8 = 2 := by
    simp [encHdr_tmod_eight b h8 hbs, halloc, hprev]
  simp only [coalesceLoop, hmem, htd]
  rw [if_neg hne, if_pos htm0]
  rw [if_neg (show ¬ ((h.mem (v + b.size)).tmod 2 = 0 ∧ h.mem (v + b.size) ≠ 1)
    from fun hc => absurd hc.1 (by omega))]
  simp only [hmem, htd]
  rw [if_neg (show ¬ (encHdr b).tmod 8 = 0 from by omega)]
  simp only [hmem, htd]

theorem coalStep_free_fwd (f : Nat) (h : Heap) (v : Int) (b b2 : Blk)
    (hmem : h.mem v = encHdr b) (h8 : b.size.tmod 8 = 0) (hbs : 8 ≤ b.size)
    (halloc : b.alloc = false) (hprev : b.prev = true)
    (hnext : h.mem (v + b.size) = encHdr b2)
    (h82 : b2.size.tmod 8 = 0) (hbs2 : 8 ≤ b2.size)
    (halloc2 : b2.alloc = false) :
    coalesceLoop (f + 1) h v =
      coalesceLoop f
        (wrH (wrH h v (encHdr ⟨b.size + b2.size, false, b.prev⟩))
          (v + (b.size + b2.size) - 4) (b.size + b2.size))
        (v + (b.size + b2.size)) := by
  have hne := encHdr_ne_one b hbs
  have htd := encHdr_tdiv_eight b h8 hbs
  have htd2 := encHdr_tdiv_eight b2 h82 hbs2
  have htm0 : (encHdr b).tmod 2 = 0 := by
    simp [encHdr_tmod_two b h8 hbs, halloc]
  have htm02 : (encHdr b2).tmod 2 = 0 := by
    simp [encHdr_tmod_two b2 h82 hbs2, halloc2]
  have hM8 : (b.size + b2.size).tmod 8 = 0 := by
    rw [Int.tmod_eq_emod (by omega) (by omega)]
    rw [Int.tmod_eq_emod (by omega) (by omega)] at h8 h82
    omega
  have htdM : (encHdr ⟨b.size + b2.size, false, b.prev⟩).tdiv 8 * 8 =
      b.size + b2.size := by
    simpa using encHdr_tdiv_eight ⟨b.size + b2.size, false, b.prev⟩
      (by simpa using hM8) (by simp only []; omega)
  have htm8M : (encHdr ⟨b.size + b2.size, false, b.prev⟩).tmod 8 = 2 := by
    have := encHdr_tmod_eight ⟨b.size + b2.size, false, b.prev⟩
      (by simpa using hM8) (by simp only []; omega)
    simpa [hprev] using this
  have henc : encHdr b + b2.size = encHdr ⟨b.size + b2.size, false, b.prev⟩ := by
    simp [encHdr, halloc]
    ring
  have hmv : (wrH (wrH h v (encHdr ⟨b.size + b2.size, false, b.prev⟩))
      (v + (b.size + b2.size) - 4) (b.size + b2.size)).mem v =
      encHdr ⟨b.size + b2.size, false, b.prev⟩ := by
    rw [wrH_mem_ne _ _ _ _ (by omega), wrH_mem_eq]
  simp only [coalesceLoop, hmem, htd]
  rw [if_neg hne, if_pos htm0]
  rw [if_pos (show (h.mem (v + b.size)).tmod 2 = 0 ∧ h.mem (v + b.size) ≠ 1
    from ⟨by rw [hnext]; exact htm02,
          by rw [hnext]; exact encHdr_ne_one b2 hbs2⟩)]
  simp only [hmem, hnext, htd, htd2, wrH_mem_eq, henc, htdM, hmv]
  rw [if_neg (show ¬ (encHdr ⟨b.size + b2.size, false, b.prev⟩).tmod 8 = 0
    from by omega)]
  simp only [hmv, htdM]

theorem coalStep_free_back (f : Nat) (h : Heap) (v : Int) (b lb : Blk)
    (hmem : h.mem v = encHdr b) (h8 : b.size.tmod 8 = 0) (hbs : 8 ≤ b.size)
    (halloc : b.alloc = false) (hprev : b.prev = false)
    (hnext : (h.mem (v + b.size)).tmod 2 = 1)
    (hfoot : h.mem (v - 4) = lb.size)
    (hlbhdr : h.mem (v - lb.size) = encHdr lb)
    (hlb8 : lb.size.tmod 8 = 0) (hlbs : 8 ≤ lb.size)
    (hlballoc : lb.alloc = false) :
    coalesceLoop (f + 1) h v =
      coalesceLoop f
        (wrH (wrH h (v - lb.size) (encHdr ⟨lb.size + b.size, false, lb.prev⟩))
          (v - lb.size + (lb.size + b.size) - 4) (lb.size + b.size))
        (v + b.size) := by
  have hne := encHdr_ne_one b hbs
  have htd := encHdr_tdiv_eight b h8 hbs
  have htm0 : (encHdr b).tmod 2 = 0 := by
    simp [encHdr_tmod_two b h8 hbs, halloc]
  have htm8v : (encHdr b).tmod 8 = 0 := by
    simp [encHdr_tmod_eight b h8 hbs, halloc, hprev]
  have hM8 : (lb.size + b.size).tmod 8 = 0 := by
    rw [Int.tmod_eq_emod (by omega) (by omega)]
    rw [Int.tmod_eq_emod (by omega) (by omega)] at h8 hlb8
    omega
  have htdM : (encHdr ⟨lb.size + b.size, false, lb.prev⟩).tdiv 8 * 8 =
      lb.size + b.size := by
    simpa using encHdr_tdiv_eight ⟨lb.size + b.size, false, lb.prev⟩
      (by simpa using hM8) (by simp only []; omega)
  have henc : encHdr lb + b.size = encHdr ⟨lb.size + b.size, false, lb.prev⟩ := by
    simp [encHdr, hlballoc]
    ring
  have hmv : (wrH (wrH h (v - lb.size)
      (encHdr ⟨lb.size + b.size, false, lb.prev⟩))
      (v - lb.size + (lb.size + b.size) - 4) (lb.size + b.size)).mem v =
      encHdr b := by
    rw [wrH_mem_ne _ _ _ _ (by omega), wrH_mem_ne _ _ _ _ (by omega), hmem]
  simp only [coalesceLoop, hmem, htd]
  rw [if_neg hne, if_pos htm0]
  rw [if_neg (show ¬ ((h.mem (v + b.size)).tmod 2 = 0 ∧ h.mem (v + b.size) ≠ 1)
    from fun hc => absurd hc.1 (by omega))]
  simp only [hmem, htd]
  rw [if_pos htm8v]
  simp only [hfoot, hlbhdr, hmem, htd, wrH_mem_eq, henc, htdM, hmv]

theorem coalStep_free_fwd_back (f : Nat) (h : Heap) (v : Int) (b b2 lb : Blk)
    (hmem : h.mem v = encHdr b) (h8 : b.size.tmod 8 = 0) (hbs : 8 ≤ b.size)
    (halloc : b.alloc = false) (hprev : b.prev = false)
    (hnext : h.mem (v + b.size) = encHdr b2)
    (h82 : b2.size.tmod 8 = 0) (hbs2 : 8 ≤ b2.size)
    (halloc2 : b2.alloc = false)
    (hfoot : h.mem (v - 4) = lb.size)
    (hlbhdr : h.mem (v - lb.size) = encHdr lb)
    (hlb8 : lb.size.tmod 8 = 0) (hlbs : 8 ≤ lb.size)
    (hlballoc : lb.alloc = false) :
    coalesceLoop (f + 1) h v =
      coalesceLoop f
        (wrH (wrH
          (wrH (wrH h v (encHdr ⟨b.size + b2.size, false, b.prev⟩))
            (v + (b.size + b2.size) - 4) (b.size + b2.size))
          (v - lb.size)
          (encHdr ⟨lb.size + (b.size + b2.size), false, lb.prev⟩))
          (v - lb.size + (lb.size + (b.size + b2.size)) - 4)
          (lb.size + (b.size + b2.size)))
        (v + (b.size + b2.size)) := by
  have hne := encHdr_ne_one b hbs
  have htd := encHdr_tdiv_eight b h8 hbs
  have htd2 := encHdr_tdiv_eight b2 h82 hbs2
  have htm0 : (encHdr b).tmod 2 = 0 := by
    simp [encHdr_tmod_two b h8 hbs, halloc]
  have htm02 : (encHdr b2).tmod 2 = 0 := by
    simp [encHdr_tmod_two b2 h82 hbs2, halloc2]
  have hM8 : (b.size + b2.size).tmod 8 = 0 := by
    rw [Int.tmod_eq_emod (by omega) (by omega)]
    rw [Int.tmod_eq_emod (by omega) (by omega)] at h8 h82
    omega
  have htdM : (encHdr ⟨b.size + b2.size, false, b.prev⟩).tdiv 8 * 8 =
      b.size + b2.size := by
    simpa using encHdr_tdiv_eight ⟨b.size + b2.size, false, b.prev⟩
      (by simpa using hM8) (by simp only []; omega)
  have htm8M : (encHdr ⟨b.size + b2.size, false, b.prev⟩).tmod 8 = 0 := by
    have := encHdr_tmod_eight ⟨b.size + b2.size, false, b.prev⟩
      (by simpa using hM8) (by simp only []; omega)
    simpa [hprev] using this
  have henc : encHdr b + b2.size = encHdr ⟨b.size + b2.size, false, b.prev⟩ := by
    simp [encHdr, halloc]
    ring
  have hM8L : (lb.size + (b.size + b2.size)).tmod 8 = 0 := by
    rw [Int.tmod_eq_emod (by omega) (by omega)]
    rw [Int.tmod_eq_emod (by omega) (by omega)] at hM8 hlb8
    omega
  have htdML : (encHdr ⟨lb.size + (b.size + b2.size), false, lb.prev⟩).tdiv
      8 * 8 = lb.size + (b.size + b2.size) := by
    simpa using encHdr_tdiv_eight ⟨lb.size + (b.size + b2.size), false,
      lb.prev⟩ (by simpa using hM8L) (by simp only []; omega)
  have hencL : encHdr lb + (b.size + b2.size) =
      encHdr ⟨lb.size + (b.size + b2.size), false, lb.prev⟩ := by
    simp [encHdr, hlballoc]
    ring
  have hmv1 : (wrH (wrH h v (encHdr ⟨b.size + b2.size, false, b.prev⟩))
      (v + (b.size + b2.size) - 4) (b.size + b2.size)).mem v =
      encHdr ⟨b.size + b2.size, false, b.prev⟩ := by
    rw [wrH_mem_ne _ _ _ _ (by omega), wrH_mem_eq]
  have hmf1 : (wrH (wrH h v (encHdr ⟨b.size + b2.size, false, b.prev⟩))
      (v + (b.size + b2.size) - 4) (b.size + b2.size)).mem (v - 4) =
      lb.size := by
    rw [wrH_mem_ne _ _ _ _ (by omega), wrH_mem_ne _ _ _ _ (by omega), hfoot]
  have hmp1 : (wrH (wrH h v (encHdr ⟨b.size + b2.size, false, b.prev⟩))
      (v + (b.size + b2.size) - 4) (b.size + b2.size)).mem (v - lb.size) =
      encHdr lb := by
    rw [wrH_mem_ne _ _ _ _ (by omega), wrH_mem_ne _ _ _ _ (by omega), hlbhdr]
  have hmv2 : (wrH (wrH
      (wrH (wrH h v (encHdr ⟨b.size + b2.size, false, b.prev⟩))
        (v + (b.size + b2.size) - 4) (b.size + b2.size))
      (v - lb.size)
      (encHdr ⟨lb.size + (b.size + b2.size), false, lb.prev⟩))
      (v - lb.size + (lb.size + (b.size + b2.size)) - 4)
      (lb.size + (b.size + b2.size))).mem v =
      encHdr ⟨b.size + b2.size, false, b.prev⟩ := by
    rw [wrH_mem_ne _ _ _ _ (by omega), wrH_mem_ne _ _ _ _ (by omega), hmv1]
  simp only [coalesceLoop, hmem, htd]
  rw [if_neg hne, if_pos htm0]
  rw [if_pos (show (h.mem (v + b.size)).tmod 2 = 0 ∧ h.mem (v + b.size) ≠ 1
    from ⟨by rw [hnext]; exact htm02,
          by rw [hnext]; exact encHdr_ne_one b2 hbs2⟩)]
  simp only [hmem, hnext, htd, htd2, wrH_mem_eq, henc, htdM, hmv1]
  rw [if_pos htm8M]
  simp only [hmf1, hmp1, hmv1, htdM, hencL, htdML, hmv2]

/-! ## `coalesce`: the full pass -/

theorem seg_snoc (h : Heap) (off e : Int) (l : List Blk) (b : Blk)
    (hl : seg h off l e = true) (hh : h.mem e = encHdr b)
    (h8 : b.size.tmod 8 = 0) (hs : 8 ≤ b.size) :
    seg h off (l ++ [b]) (e + b.size) = true := by
  rw [seg_append_iff]
  have he : off + sumSizes l = e := (seg_end h e l off hl).symm
  rw [he]
  exact ⟨hl, by rw [seg_cons_iff]; exact ⟨hh, h8, hs, by rw [seg_nil_iff]⟩⟩

theorem pOk_snoc (l : List Blk) (b : Blk) (a : Bool) :
    pOk a (l ++ [b]) = (pOk a l && (b.prev == endAl a l)) := by
  rw [pOk_append]
  simp [pOk]

theorem endAl_snoc (l : List Blk) (b : Blk) (a : Bool) :
    endAl a (l ++ [b]) = b.alloc := by
  rw [endAl_append]
  rfl

theorem noAdjFrom_snoc (l : List Blk) (b : Blk) (a : Bool) :
    noAdjFreeFrom a (l ++ [b]) =
      (noAdjFreeFrom a l && (endAl a l || b.alloc)) := by
  rw [noAdjFreeFrom_append]
  simp [noAdjFreeFrom]

theorem coalesceGo_nil (h : Heap) (v : Int) (done : List Blk)
    (hdone : seg h 0 done v = true)
    (hrest : seg h v ([] : List Blk) h.allocsize = true)
    (hone : h.mem h.allocsize = 1)
    (hpok : pOk true (done ++ []) = true)
    (hnadj : noAdjFreeFrom true done = true)
    (heven : evenOutside h (done ++ [])) :
    ∃ (f : Nat) (h' : Heap) (done' : List Blk),
      coalesceLoop f h v = some h' ∧
      chainB h' 0 done' = true ∧ pOk true done' = true ∧
      noAdjFreeFrom true done' = true ∧ evenOutside h' done' ∧
      h'.base = h.base ∧ h'.allocsize = h.allocsize := by
  rw [seg_nil_iff] at hrest
  subst hrest
  refine ⟨1, h, done, ?_, ?_, by simpa using hpok, hnadj,
    by simpa using heven, rfl, rfl⟩
  · simp [coalesceLoop, hone]
  · exact chainB_of_parts h done hdone hone

/-- Precondition of the coalescing loop at position `v`: the part `done`
already processed parses and has no adjacent free pair, the part `rest`
still to be walked parses up to the end mark, the prev bits are globally
consistent, and when the block before `v` is free its size is available at
`v - 4` unless the block at `v` is allocated. -/
def coalPre (h : Heap) (v : Int) (done rest : List Blk) : Prop :=
  seg h 0 done v = true ∧ seg h v rest h.allocsize = true ∧
  h.mem h.allocsize = 1 ∧ pOk true (done ++ rest) = true ∧
  noAdjFreeFrom true done = true ∧ 0 ≤ v ∧ (8:Int) ∣ v ∧
  (8:Int) ∣ h.allocsize ∧ evenOutside h (done ++ rest) ∧
  (endAl true done = false →
    (∃ d0 lb, done = d0 ++ [lb] ∧ lb.alloc = false ∧
      h.mem (v - 4) = lb.size) ∨ (h.mem v).tmod 2 = 1)

/-- Postcondition of the coalescing loop from position `v`: it terminates
and leaves a well-formed chain with no two adjacent free blocks. -/
def coalOut (h : Heap) (v : Int) : Prop :=
  ∃ (f : Nat) (h' : Heap) (done' : List Blk),
    coalesceLoop f h v = some h' ∧ chainB h' 0 done' = true ∧
    pOk true done' = true ∧ noAdjFreeFrom true done' = true ∧
    evenOutside h' done' ∧ h'.base = h.base ∧ h'.allocsize = h.allocsize

theorem coalGo_alloc (n : Nat)
    (IH : ∀ (rest : List Blk) (h : Heap) (v : Int) (done : List Blk),
      rest.length ≤ n → coalPre h v done rest → coalOut h v)
    (h : Heap) (v : Int) (done : List Blk) (b : Blk) (rest' : List Blk)
    (hlen : rest'.length ≤ n) (hpre : coalPre h v done (b :: rest'))
    (hA : b.alloc = true) : coalOut h v := by
  obtain ⟨hdone, hrest, hone, hpok, hnadj, hv0, hvd, hAd, heven, hfoot⟩ := hpre
  rw [seg_cons_iff] at hrest
  obtain ⟨hmem, h8, hbs, hrest'⟩ := hrest
  have hassoc : (done ++ [b]) ++ rest' = done ++ b :: rest' := by simp
  have hnext : coalPre h (v + b.size) (done ++ [b]) rest' := by
    refine ⟨seg_snoc h 0 v done b hdone hmem h8 hbs, hrest', hone,
      by rw [hassoc]; exact hpok, ?_, by omega,
      Int.dvd_add hvd (Int.dvd_iff_tmod_eq_zero.mpr h8), hAd,
      by rw [hassoc]; exact heven, ?_⟩
    · rw [noAdjFrom_snoc, hA]
      simp [hnadj]
    · rw [endAl_snoc, hA]
      intro hcon
      simp at hcon
  obtain ⟨f, h', done', hrun, hres⟩ := IH rest' h (v + b.size) (done ++ [b])
    hlen hnext
  exact ⟨f + 1, h', done',
    by rw [coalStep_alloc f h v b hmem h8 hbs hA]; exact hrun, hres⟩

theorem coalGo_noFwd (n : Nat)
    (IH : ∀ (rest : List Blk) (h : Heap) (v : Int) (done : List Blk),
      rest.length ≤ n → coalPre h v done rest → coalOut h v)
    (h : Heap) (v : Int) (done : List Blk) (b : Blk) (rest' : List Blk)
    (hlen : rest'.length ≤ n) (hpre : coalPre h v done (b :: rest'))
    (hA : b.alloc = false) (hP : b.prev = true)
    (hnextodd : (h.mem (v + b.size)).tmod 2 = 1) : coalOut h v := by
  obtain ⟨hdone, hrest, hone, hpok, hnadj, hv0, hvd, hAd, heven, hfoot⟩ := hpre
  rw [seg_cons_iff] at hrest
  obtain ⟨hmem, h8, hbs, hrest'⟩ := hrest
  have hassoc : (done ++ [b]) ++ rest' = done ++ b :: rest' := by simp
  have hbprev : b.prev = endAl true done := by
    rw [pOk_append, Bool.and_eq_true] at hpok
    have := hpok.2
    simp only [pOk, Bool.and_eq_true, beq_iff_eq] at this
    exact this.1
  have hnext : coalPre h (v + b.size) (done ++ [b]) rest' := by
    refine ⟨seg_snoc h 0 v done b hdone hmem h8 hbs, hrest', hone,
      by rw [hassoc]; exact hpok, ?_, by omega,
      Int.dvd_add hvd (Int.dvd_iff_tmod_eq_zero.mpr h8), hAd,
      by rw [hassoc]; exact heven, ?_⟩
    · rw [noAdjFrom_snoc, ← hbprev, hP]
      simp [hnadj]
    · intro _
      right
      exact hnextodd
  obtain ⟨f, h', done', hrun, hres⟩ := IH rest' h (v + b.size) (done ++ [b])
    hlen hnext
  exact ⟨f + 1, h', done',
    by rw [coalStep_free_noMerge f h v b hmem h8 hbs hA hP hnextodd];
       exact hrun, hres⟩

theorem coalGo_fwd (n : Nat)
    (IH : ∀ (rest : List Blk) (h : Heap) (v : Int) (done : List Blk),
      rest.length ≤ n → coalPre h v done rest → coalOut h v)
    (h : Heap) (v : Int) (done : List Blk) (b b2 : Blk) (rest'' : List Blk)
    (hlen : (b2 :: rest'').length ≤ n)
    (hpre : coalPre h v done (b :: b2 :: rest''))
    (hA : b.alloc = false) (hP : b.prev = true)
    (hA2 : b2.alloc = false) : coalOut h v := by
  obtain ⟨hdone, hrest, hone, hpok, hnadj, hv0, hvd, hAd, heven, hfoot⟩ := hpre
  rw [seg_cons_iff] at hrest
  obtain ⟨hmem, h8, hbs, hrest⟩ := hrest
  rw [seg_cons_iff] at hrest
  obtain ⟨hmem2, h82, hbs2, hrest''⟩ := hrest
  have hbd : (8:Int) ∣ b.size := Int.dvd_iff_tmod_eq_zero.mpr h8
  have hb2d : (8:Int) ∣ b2.size := Int.dvd_iff_tmod_eq_zero.mpr h82
  have hsumdone : sumSizes done = v := by
    have := seg_end h v done 0 hdone; omega
  have hrestend := seg_end h h.allocsize rest'' (v + b.size + b2.size) hrest''
  have hrestnn := seg_sum_nonneg h h.allocsize rest'' (v + b.size + b2.size)
    hrest''
  have hdonelt : ∀ x ∈ starts 0 done, x + 8 ≤ v := by
    intro x hx; exact (starts_mem_bounds h v done 0 hdone x hx).2
  have hrestge : ∀ x ∈ starts (v + b.size + b2.size) rest'',
      v + b.size + b2.size ≤ x := by
    intro x hx
    exact (starts_mem_bounds h h.allocsize rest'' (v + b.size + b2.size)
      hrest'' x hx).1
  have hbprev : b.prev = endAl true done := by
    rw [pOk_append, Bool.and_eq_true] at hpok
    have := hpok.2
    simp only [pOk, Bool.and_eq_true, beq_iff_eq] at this
    exact this.1
  have hM8 : (b.size + b2.size).tmod 8 = 0 := by
    rw [Int.tmod_eq_emod (by omega) (by omega)]
    omega
  -- the heap after the forward merge of b2 into b
  set h1 := wrH (wrH h v (encHdr ⟨b.size + b2.size, false, b.prev⟩))
    (v + (b.size + b2.size) - 4) (b.size + b2.size) with hh1
  have h1alc : h1.allocsize = h.allocsize := rfl
  have h1base : h1.base = h.base := rfl
  have hm_v : h1.mem v = encHdr ⟨b.size + b2.size, false, b.prev⟩ := by
    rw [hh1, wrH_mem_ne _ _ _ _ (by omega), wrH_mem_eq]
  have hm_fp : h1.mem (v + (b.size + b2.size) - 4) = b.size + b2.size := by
    rw [hh1, wrH_mem_eq]
  have hm_other : ∀ j, j ≠ v → j ≠ v + (b.size + b2.size) - 4 →
      h1.mem j = h.mem j := by
    intro j hj1 hj2
    rw [hh1, wrH_mem_ne _ _ _ _ hj2, wrH_mem_ne _ _ _ _ hj1]
  have hdone1 : seg h1 0 done v = true := by
    rw [hh1, seg_wr, seg_wr]
    · exact hdone
    · intro hc; have := hdonelt _ hc; omega
    · intro hc; have := hdonelt _ hc; omega
  have hrestge2 : ∀ x ∈ starts (v + (b.size + b2.size)) rest'',
      v + b.size + b2.size ≤ x := by
    rw [show v + (b.size + b2.size) = v + b.size + b2.size from by ring]
    exact hrestge
  have hrest1 : seg h1 (v + (b.size + b2.size)) rest'' h.allocsize = true := by
    rw [hh1, seg_wr, seg_wr]
    · rw [show v + (b.size + b2.size) = v + b.size + b2.size from by ring]
      exact hrest''
    · intro hc; have := hrestge2 _ hc; omega
    · intro hc; have := hrestge2 _ hc; omega
  have hone1 : h1.mem h.allocsize = 1 := by
    rw [hm_other _ (by omega) (by omega)]
    exact hone
  have hassoc : (done ++ [(⟨b.size + b2.size, false, b.prev⟩ : Blk)]) ++
      rest'' = done ++ (⟨b.size + b2.size, false, b.prev⟩ : Blk) :: rest'' :=
    by simp
  have hnext : coalPre h1 (v + (b.size + b2.size))
      (done ++ [⟨b.size + b2.size, false, b.prev⟩]) rest'' := by
    refine ⟨seg_snoc h1 0 v done _ hdone1 hm_v (by simpa using hM8)
        (by simp only []; omega),
      by rw [h1alc]; exact hrest1, by rw [h1alc]; exact hone1, ?_, ?_,
      by omega, by rw [show v + (b.size + b2.size) = v + b.size + b2.size
        from by ring]; exact Dvd.dvd.add (Dvd.dvd.add hvd hbd) hb2d,
      by rw [h1alc]; exact hAd, ?_, ?_⟩
    · -- pOk
      rw [hassoc]
      rw [pOk_append, Bool.and_eq_true] at hpok ⊢
      refine ⟨hpok.1, ?_⟩
      have h2 := hpok.2
      simp only [pOk, Bool.and_eq_true, beq_iff_eq] at h2 ⊢
      rw [hA] at h2
      exact ⟨h2.1, by rw [hA2] at h2; exact h2.2.2⟩
    · -- no adjacent free pair in the processed part
      rw [noAdjFrom_snoc, ← hbprev, hP]
      simp [hnadj]
    · -- evenness
      rw [hassoc]
      intro j hj0 hjA hj8 hjs
      rw [h1alc] at hjA
      have hjd : (8:Int) ∣ j := Int.dvd_iff_tmod_eq_zero.mpr hj8
      rw [starts_append, show (0:Int) + sumSizes done = v from by omega]
        at hjs
      simp only [starts, List.mem_cons, List.mem_append, not_or] at hjs
      obtain ⟨hjdone, hjv, hjrest⟩ := hjs
      by_cases hjb2 : j = v + b.size
      · -- the absorbed header still holds an even value
        rw [hm_other _ (by omega) (by omega), hjb2, hmem2,
          encHdr_tmod_two b2 h82 hbs2, hA2]
        simp
      · rw [hm_other _ hjv (by omega)]
        apply heven j hj0 hjA hj8
        rw [starts_append, show (0:Int) + sumSizes done = v from by omega]
        simp only [starts, List.mem_cons, List.mem_append, not_or]
        refine ⟨hjdone, hjv, hjb2, ?_⟩
        rw [show v + (b.size + b2.size) = v + b.size + b2.size from by ring]
          at hjrest
        exact hjrest
    · -- the fresh footer of the merged block
      intro _
      left
      refine ⟨done, ⟨b.size + b2.size, false, b.prev⟩, rfl, rfl, ?_⟩
      rw [show v + (b.size + b2.size) - 4 = v + (b.size + b2.size) - 4
        from rfl]
      exact hm_fp
  obtain ⟨f, h', done', hrun, hres⟩ := IH rest'' h1
    (v + (b.size + b2.size)) (done ++ [⟨b.size + b2.size, false, b.prev⟩])
    (by simp at hlen ⊢; omega) hnext
  refine ⟨f + 1, h', done',
    by rw [coalStep_free_fwd f h v b b2 hmem h8 hbs hA hP hmem2 h82 hbs2 hA2]
       exact hrun, ?_, hres.2.1, hres.2.2.1, hres.2.2.2.1, ?_, ?_⟩
  · exact hres.1
  · rw [hres.2.2.2.2.1, h1base]
  · rw [hres.2.2.2.2.2, h1alc]

theorem coalGo_back (n : Nat)
    (IH : ∀ (rest : List Blk) (h : Heap) (v : Int) (done : List Blk),
      rest.length ≤ n → coalPre h v done rest → coalOut h v)
    (h : Heap) (v : Int) (d0 : List Blk) (lb b : Blk) (rest' : List Blk)
    (hlen : rest'.length ≤ n)
    (hpre : coalPre h v (d0 ++ [lb]) (b :: rest'))
    (hA : b.alloc = false) (hP : b.prev = false)
    (hlballoc : lb.alloc = false)
    (hfootval : h.mem (v - 4) = lb.size)
    (hnextodd : (h.mem (v + b.size)).tmod 2 = 1) : coalOut h v := by
  obtain ⟨hdone, hrest, hone, hpok, hnadj, hv0, hvd, hAd, heven, hfoot⟩ := hpre
  rw [seg_cons_iff] at hrest
  obtain ⟨hmem, h8, hbs, hrest'⟩ := hrest
  rw [seg_append_iff] at hdone
  obtain ⟨hd0, hlbseg⟩ := hdone
  rw [seg_cons_iff] at hlbseg
  obtain ⟨hlbhdr0, hlb8, hlbs, hlbend⟩ := hlbseg
  rw [seg_nil_iff] at hlbend
  have hp : (0:Int) + sumSizes d0 = v - lb.size := by omega
  rw [hp] at hd0 hlbhdr0
  have hbd : (8:Int) ∣ b.size := Int.dvd_iff_tmod_eq_zero.mpr h8
  have hlbd : (8:Int) ∣ lb.size := Int.dvd_iff_tmod_eq_zero.mpr hlb8
  have hrestend := seg_end h h.allocsize rest' (v + b.size) hrest'
  have hrestnn := seg_sum_nonneg h h.allocsize rest' (v + b.size) hrest'
  have hd0lt : ∀ x ∈ starts 0 d0, x + 8 ≤ v - lb.size := by
    intro x hx; exact (starts_mem_bounds h (v - lb.size) d0 0 hd0 x hx).2
  have hrestge : ∀ x ∈ starts (v + b.size) rest', v + b.size ≤ x := by
    intro x hx
    exact (starts_mem_bounds h h.allocsize rest' (v + b.size) hrest' x hx).1
  have hM8 : (lb.size + b.size).tmod 8 = 0 := by
    rw [Int.tmod_eq_emod (by omega) (by omega)]
    omega
  set h2 := wrH (wrH h (v - lb.size)
      (encHdr ⟨lb.size + b.size, false, lb.prev⟩))
    (v - lb.size + (lb.size + b.size) - 4) (lb.size + b.size) with hh2
  have h2alc : h2.allocsize = h.allocsize := rfl
  have h2base : h2.base = h.base := rfl
  have hm_p : h2.mem (v - lb.size) =
      encHdr ⟨lb.size + b.size, false, lb.prev⟩ := by
    rw [hh2, wrH_mem_ne _ _ _ _ (by omega), wrH_mem_eq]
  have hm_fp : h2.mem (v - lb.size + (lb.size + b.size) - 4) =
      lb.size + b.size := by
    rw [hh2, wrH_mem_eq]
  have hm_other : ∀ j, j ≠ v - lb.size → j ≠ v + b.size - 4 →
      h2.mem j = h.mem j := by
    intro j hj1 hj2
    rw [hh2, wrH_mem_ne _ _ _ _ (by omega), wrH_mem_ne _ _ _ _ hj1]
  have hd02 : seg h2 0 d0 (v - lb.size) = true := by
    rw [hh2, seg_wr, seg_wr]
    · exact hd0
    · intro hc; have := hd0lt _ hc; omega
    · intro hc; have := hd0lt _ hc; omega
  have hrest2 : seg h2 (v + b.size) rest' h.allocsize = true := by
    rw [hh2, seg_wr, seg_wr]
    · exact hrest'
    · intro hc; have := hrestge _ hc; omega
    · intro hc; have := hrestge _ hc; omega
  have hone2 : h2.mem h.allocsize = 1 := by
    rw [hm_other _ (by omega) (by omega)]
    exact hone
  have hsegnew : seg h2 0 (d0 ++ [⟨lb.size + b.size, false, lb.prev⟩])
      (v + b.size) = true := by
    have := seg_snoc h2 0 (v - lb.size) d0
      ⟨lb.size + b.size, false, lb.prev⟩ hd02 hm_p
      (by simpa using hM8) (by simp only []; omega)
    rw [show v - lb.size + (lb.size + b.size) = v + b.size from by ring]
      at this
    exact this
  have hnext : coalPre h2 (v + b.size)
      (d0 ++ [⟨lb.size + b.size, false, lb.prev⟩]) rest' := by
    refine ⟨hsegnew, by rw [h2alc]; exact hrest2, by rw [h2alc]; exact hone2,
      ?_, ?_, by omega, Int.dvd_add hvd hbd, by rw [h2alc]; exact hAd,
      ?_, ?_⟩
    · -- pOk
      rw [show (d0 ++ [(⟨lb.size + b.size, false, lb.prev⟩ : Blk)]) ++ rest' =
        d0 ++ (⟨lb.size + b.size, false, lb.prev⟩ : Blk) :: rest' from by simp]
      rw [show (d0 ++ [lb]) ++ b :: rest' = d0 ++ lb :: b :: rest' from by
        simp] at hpok
      rw [pOk_append, Bool.and_eq_true] at hpok ⊢
      refine ⟨hpok.1, ?_⟩
      have hq := hpok.2
      simp only [pOk, Bool.and_eq_true, beq_iff_eq] at hq ⊢
      rw [hlballoc] at hq
      exact ⟨hq.1, by rw [hA] at hq; exact hq.2.2⟩
    · -- no adjacent free pair
      rw [noAdjFrom_snoc] at hnadj ⊢
      simpa [hlballoc] using hnadj
    · -- evenness
      rw [show (d0 ++ [(⟨lb.size + b.size, false, lb.prev⟩ : Blk)]) ++ rest' =
        d0 ++ (⟨lb.size + b.size, false, lb.prev⟩ : Blk) :: rest' from by simp]
      intro j hj0 hjA hj8 hjs
      rw [h2alc] at hjA
      have hjd : (8:Int) ∣ j := Int.dvd_iff_tmod_eq_zero.mpr hj8
      rw [starts_append,
        show (0:Int) + sumSizes d0 = v - lb.size from by omega] at hjs
      simp only [starts, List.mem_cons, List.mem_append, not_or] at hjs
      obtain ⟨hjd0, hjp, hjrest⟩ := hjs
      rw [show v - lb.size + (lb.size + b.size) = v + b.size from by ring]
        at hjrest
      by_cases hjv : j = v
      · -- the absorbed header still holds an even value
        rw [hm_other _ (by omega) (by omega), hjv, hmem,
          encHdr_tmod_two b h8 hbs, hA]
        simp
      · rw [hm_other _ hjp (by omega)]
        apply heven j hj0 hjA hj8
        rw [show (d0 ++ [lb]) ++ b :: rest' = d0 ++ lb :: b :: rest' from by
          simp]
        rw [starts_append,
          show (0:Int) + sumSizes d0 = v - lb.size from by omega]
        simp only [starts, List.mem_cons, List.mem_append, not_or]
        rw [show v - lb.size + lb.size = v from by ring]
        exact ⟨hjd0, hjp, hjv, hjrest⟩
    · -- fresh footer of the merged block
      intro _
      left
      refine ⟨d0, ⟨lb.size + b.size, false, lb.prev⟩, rfl, rfl, ?_⟩
      have := hm_fp
      rw [show v - lb.size + (lb.size + b.size) - 4 = v + b.size - 4 from by
        ring] at this
      exact this
  obtain ⟨f, h', done', hrun, hres⟩ := IH rest' h2 (v + b.size)
    (d0 ++ [⟨lb.size + b.size, false, lb.prev⟩]) hlen hnext
  refine ⟨f + 1, h', done',
    by rw [coalStep_free_back f h v b lb hmem h8 hbs hA hP hnextodd hfootval
         hlbhdr0 hlb8 hlbs hlballoc]
       exact hrun, hres.1, hres.2.1, hres.2.2.1, hres.2.2.2.1, ?_, ?_⟩
  · rw [hres.2.2.2.2.1, h2base]
  · rw [hres.2.2.2.2.2, h2alc]

theorem coalGo_fwd_back (n : Nat)
    (IH : ∀ (rest : List Blk) (h : Heap) (v : Int) (done : List Blk),
      rest.length ≤ n → coalPre h v done rest → coalOut h v)
    (h : Heap) (v : Int) (d0 : List Blk) (lb b b2 : Blk) (rest'' : List Blk)
    (hlen : (b2 :: rest'').length ≤ n)
    (hpre : coalPre h v (d0 ++ [lb]) (b :: b2 :: rest''))
    (hA : b.alloc = false) (hP : b.prev = false) (hA2 : b2.alloc = false)
    (hlballoc : lb.alloc = false)
    (hfootval : h.mem (v - 4) = lb.size) : coalOut h v := by
  obtain ⟨hdone, hrest, hone, hpok, hnadj, hv0, hvd, hAd, heven, hfoot⟩ := hpre
  rw [seg_cons_iff] at hrest
  obtain ⟨hmem, h8, hbs, hrest⟩ := hrest
  rw [seg_cons_iff] at hrest
  obtain ⟨hmem2, h82, hbs2, hrest''⟩ := hrest
  rw [seg_append_iff] at hdone
  obtain ⟨hd0, hlbseg⟩ := hdone
  rw [seg_cons_iff] at hlbseg
  obtain ⟨hlbhdr0, hlb8, hlbs, hlbend⟩ := hlbseg
  rw [seg_nil_iff] at hlbend
  have hp : (0:Int) + sumSizes d0 = v - lb.size := by omega
  rw [hp] at hd0 hlbhdr0
  have hbd : (8:Int) ∣ b.size := Int.dvd_iff_tmod_eq_zero.mpr h8
  have hb2d : (8:Int) ∣ b2.size := Int.dvd_iff_tmod_eq_zero.mpr h82
  have hlbd : (8:Int) ∣ lb.size := Int.dvd_iff_tmod_eq_zero.mpr hlb8
  have hrestend := seg_end h h.allocsize rest'' (v + b.size + b2.size) hrest''
  have hrestnn := seg_sum_nonneg h h.allocsize rest'' (v + b.size + b2.size)
    hrest''
  have hd0lt : ∀ x ∈ starts 0 d0, x + 8 ≤ v - lb.size := by
    intro x hx; exact (starts_mem_bounds h (v - lb.size) d0 0 hd0 x hx).2
  have hrestge : ∀ x ∈ starts (v + b.size + b2.size) rest'',
      v + b.size + b2.size ≤ x := by
    intro x hx
    exact (starts_mem_bounds h h.allocsize rest'' (v + b.size + b2.size)
      hrest'' x hx).1
  have hM8 : (lb.size + (b.size + b2.size)).tmod 8 = 0 := by
    rw [Int.tmod_eq_emod (by omega) (by omega)]
    omega
  have hMb8 : (b.size + b2.size).tmod 8 = 0 := by
    rw [Int.tmod_eq_emod (by omega) (by omega)]
    omega
  set h2 := wrH (wrH
      (wrH (wrH h v (encHdr ⟨b.size + b2.size, false, b.prev⟩))
        (v + (b.size + b2.size) - 4) (b.size + b2.size))
      (v - lb.size)
      (encHdr ⟨lb.size + (b.size + b2.size), false, lb.prev⟩))
      (v - lb.size + (lb.size + (b.size + b2.size)) - 4)
      (lb.size + (b.size + b2.size)) with hh2
  have h2alc : h2.allocsize = h.allocsize := rfl
  have h2base : h2.base = h.base := rfl
  have hm_p : h2.mem (v - lb.size) =
      encHdr ⟨lb.size + (b.size + b2.size), false, lb.prev⟩ := by
    rw [hh2, wrH_mem_ne _ _ _ _ (by omega), wrH_mem_eq]
  have hm_fp : h2.mem (v - lb.size + (lb.size + (b.size + b2.size)) - 4) =
      lb.size + (b.size + b2.size) := by
    rw [hh2, wrH_mem_eq]
  have hm_other : ∀ j, j ≠ v → j ≠ v - lb.size →
      j ≠ v + b.size + b2.size - 4 → h2.mem j = h.mem j := by
    intro j hj1 hj2 hj3
    rw [hh2, wrH_mem_ne _ _ _ _ (by omega), wrH_mem_ne _ _ _ _ hj2,
      wrH_mem_ne _ _ _ _ (by omega), wrH_mem_ne _ _ _ _ hj1]
  have hm_v : h2.mem v = encHdr ⟨b.size + b2.size, false, b.prev⟩ := by
    rw [hh2, wrH_mem_ne _ _ _ _ (by omega), wrH_mem_ne _ _ _ _ (by omega),
      wrH_mem_ne _ _ _ _ (by omega), wrH_mem_eq]
  have hm_b2 : h2.mem (v + b.size) = encHdr b2 := by
    rw [hm_other _ (by omega) (by omega) (by omega)]
    exact hmem2
  have hd02 : seg h2 0 d0 (v - lb.size) = true := by
    rw [hh2, seg_wr, seg_wr, seg_wr, seg_wr]
    · exact hd0
    · intro hc; have := hd0lt _ hc; omega
    · intro hc; have := hd0lt _ hc; omega
    · intro hc; have := hd0lt _ hc; omega
    · intro hc; have := hd0lt _ hc; omega
  have hrest2 : seg h2 (v + b.size + b2.size) rest'' h.allocsize = true := by
    rw [hh2, seg_wr, seg_wr, seg_wr, seg_wr]
    · exact hrest''
    · intro hc; have := hrestge _ hc; omega
    · intro hc; have := hrestge _ hc; omega
    · intro hc; have := hrestge _ hc; omega
    · intro hc; have := hrestge _ hc; omega
  have hone2 : h2.mem h.allocsize = 1 := by
    rw [hm_other _ (by omega) (by omega) (by omega)]
    exact hone
  have hsegnew : seg h2 0
      (d0 ++ [⟨lb.size + (b.size + b2.size), false, lb.prev⟩])
      (v + (b.size + b2.size)) = true := by
    have := seg_snoc h2 0 (v - lb.size) d0
      ⟨lb.size + (b.size + b2.size), false, lb.prev⟩ hd02 hm_p
      (by simpa using hM8) (by simp only []; omega)
    rw [show v - lb.size + (lb.size + (b.size + b2.size)) =
      v + (b.size + b2.size) from by ring] at this
    exact this
  have hnext : coalPre h2 (v + (b.size + b2.size))
      (d0 ++ [⟨lb.size + (b.size + b2.size), false, lb.prev⟩]) rest'' := by
    refine ⟨hsegnew, ?_, by rw [h2alc]; exact hone2, ?_, ?_,
      by omega,
      by rw [show v + (b.size + b2.size) = v + b.size + b2.size from by ring]
         exact Dvd.dvd.add (Dvd.dvd.add hvd hbd) hb2d,
      by rw [h2alc]; exact hAd, ?_, ?_⟩
    · rw [h2alc, show v + (b.size + b2.size) = v + b.size + b2.size from by
        ring]
      exact hrest2
    · -- pOk
      rw [show (d0 ++ [(⟨lb.size + (b.size + b2.size), false, lb.prev⟩ :
        Blk)]) ++ rest'' =
        d0 ++ (⟨lb.size + (b.size + b2.size), false, lb.prev⟩ : Blk) ::
        rest'' from by simp]
      rw [show (d0 ++ [lb]) ++ b :: b2 :: rest'' =
        d0 ++ lb :: b :: b2 :: rest'' from by simp] at hpok
      rw [pOk_append, Bool.and_eq_true] at hpok ⊢
      refine ⟨hpok.1, ?_⟩
      have hq := hpok.2
      simp only [pOk, Bool.and_eq_true, beq_iff_eq] at hq ⊢
      rw [hlballoc] at hq
      refine ⟨hq.1, ?_⟩
      rw [hA] at hq
      rw [hA2] at hq
      exact hq.2.2.2
    · -- no adjacent free pair
      rw [noAdjFrom_snoc] at hnadj ⊢
      simpa [hlballoc] using hnadj
    · -- evenness
      rw [show (d0 ++ [(⟨lb.size + (b.size + b2.size), false, lb.prev⟩ :
        Blk)]) ++ rest'' =
        d0 ++ (⟨lb.size + (b.size + b2.size), false, lb.prev⟩ : Blk) ::
        rest'' from by simp]
      intro j hj0 hjA hj8 hjs
      rw [h2alc] at hjA
      have hjd : (8:Int) ∣ j := Int.dvd_iff_tmod_eq_zero.mpr hj8
      rw [starts_append,
        show (0:Int) + sumSizes d0 = v - lb.size from by omega] at hjs
      simp only [starts, List.mem_cons, List.mem_append, not_or] at hjs
      obtain ⟨hjd0, hjp, hjrest⟩ := hjs
      rw [show v - lb.size + (lb.size + (b.size + b2.size)) =
        v + b.size + b2.size from by ring] at hjrest
      by_cases hjv : j = v
      · rw [hjv, hm_v, encHdr_tmod_two ⟨b.size + b2.size, false, b.prev⟩
          (by simpa using hMb8) (by simp only []; omega)]
        simp
      · by_cases hjb2 : j = v + b.size
        · rw [hjb2, hm_b2, encHdr_tmod_two b2 h82 hbs2, hA2]
          simp
        · rw [hm_other _ hjv hjp (by omega)]
          apply heven j hj0 hjA hj8
          rw [show (d0 ++ [lb]) ++ b :: b2 :: rest'' =
            d0 ++ lb :: b :: b2 :: rest'' from by simp]
          rw [starts_append,
            show (0:Int) + sumSizes d0 = v - lb.size from by omega]
          simp only [starts, List.mem_cons, List.mem_append, not_or]
          rw [show v - lb.size + lb.size = v from by ring]
          exact ⟨hjd0, hjp, hjv, hjb2, hjrest⟩
    · -- fresh footer of the merged block
      intro _
      left
      refine ⟨d0, ⟨lb.size + (b.size + b2.size), false, lb.prev⟩, rfl, rfl,
        ?_⟩
      have := hm_fp
      rw [show v - lb.size + (lb.size + (b.size + b2.size)) - 4 =
        v + (b.size + b2.size) - 4 from by ring] at this
      exact this
  obtain ⟨f, h', done', hrun, hres⟩ := IH rest'' h2 (v + (b.size + b2.size))
    (d0 ++ [⟨lb.size + (b.size + b2.size), false, lb.prev⟩])
    (by simp at hlen ⊢; omega) hnext
  refine ⟨f + 1, h', done',
    by rw [coalStep_free_fwd_back f h v b b2 lb hmem h8 hbs hA hP hmem2 h82
         hbs2 hA2 hfootval hlbhdr0 hlb8 hlbs hlballoc]
       exact hrun, hres.1, hres.2.1, hres.2.2.1, hres.2.2.2.1, ?_, ?_⟩
  · rw [hres.2.2.2.2.1, h2base]
  · rw [hres.2.2.2.2.2, h2alc]

theorem coalesceGo : ∀ (n : Nat) (rest : List Blk) (h : Heap) (v : Int)
    (done : List Blk), rest.length ≤ n → coalPre h v done rest →
    coalOut h v := by
  intro n
  induction n with
  | zero =>
    intro rest h v done hlen hpre
    obtain ⟨hdone, hrest, hone, hpok, hnadj, hv0, hvd, hAd, heven, hfoot⟩ :=
      hpre
    have hnil : rest = [] := by
      cases rest
      · rfl
      · simp at hlen
    subst hnil
    exact coalesceGo_nil h v done hdone hrest hone hpok hnadj heven
  | succ n ih =>
    intro rest h v done hlen hpre
    cases rest with
    | nil =>
      obtain ⟨hdone, hrest, hone, hpok, hnadj, hv0, hvd, hAd, heven, hfoot⟩ :=
        hpre
      exact coalesceGo_nil h v done hdone hrest hone hpok hnadj heven
    | cons b rest' =>
      have hlen' : rest'.length ≤ n := by simp at hlen; omega
      have hmem : h.mem v = encHdr b := by
        have := hpre.2.1
        rw [seg_cons_iff] at this
        exact this.1
      have h8 : b.size.tmod 8 = 0 := by
        have := hpre.2.1
        rw [seg_cons_iff] at this
        exact this.2.1
      have hbs : 8 ≤ b.size := by
        have := hpre.2.1
        rw [seg_cons_iff] at this
        exact this.2.2.1
      have hrest' : seg h (v + b.size) rest' h.allocsize = true := by
        have := hpre.2.1
        rw [seg_cons_iff] at this
        exact this.2.2.2
      have hbprev : b.prev = endAl true done := by
        have hpok := hpre.2.2.2.1
        rw [pOk_append, Bool.and_eq_true] at hpok
        have := hpok.2
        simp only [pOk, Bool.and_eq_true, beq_iff_eq] at this
        exact this.1
      cases hA : b.alloc with
      | true => exact coalGo_alloc n ih h v done b rest' hlen' hpre hA
      | false =>
        cases hP : b.prev with
        | true =>
          cases rest' with
          | nil =>
            have hsent : v + b.size = h.allocsize := by
              rw [seg_nil_iff] at hrest'
              omega
            have hnextodd : (h.mem (v + b.size)).tmod 2 = 1 := by
              rw [hsent, hpre.2.2.1]
              decide
            exact coalGo_noFwd n ih h v done b [] hlen' hpre hA hP hnextodd
          | cons b2 rest'' =>
            have hmem2 : h.mem (v + b.size) = encHdr b2 := by
              rw [seg_cons_iff] at hrest'
              exact hrest'.1
            have h82 : b2.size.tmod 8 = 0 := by
              rw [seg_cons_iff] at hrest'
              exact hrest'.2.1
            have hbs2 : 8 ≤ b2.size := by
              rw [seg_cons_iff] at hrest'
              exact hrest'.2.2.1
            cases hA2 : b2.alloc with
            | true =>
              have hnextodd : (h.mem (v + b.size)).tmod 2 = 1 := by
                rw [hmem2, encHdr_tmod_two b2 h82 hbs2, hA2]
                simp
              exact coalGo_noFwd n ih h v done b (b2 :: rest'') hlen' hpre hA
                hP hnextodd
            | false =>
              exact coalGo_fwd n ih h v done b b2 rest'' hlen' hpre hA hP hA2
        | false =>
          have hend : endAl true done = false := by rw [← hbprev, hP]
          have hfoot := hpre.2.2.2.2.2.2.2.2.2 hend
          rcases hfoot with ⟨d0, lb, hdeq, hlballoc, hfootval⟩ | hodd
          swap
          · rw [hmem, encHdr_tmod_two b h8 hbs, hA] at hodd
            simp at hodd
          subst hdeq
          cases rest' with
          | nil =>
            have hsent : v + b.size = h.allocsize := by
              rw [seg_nil_iff] at hrest'
              omega
            have hnextodd : (h.mem (v + b.size)).tmod 2 = 1 := by
              rw [hsent, hpre.2.2.1]
              decide
            exact coalGo_back n ih h v d0 lb b [] hlen' hpre hA hP hlballoc
              hfootval hnextodd
          | cons b2 rest'' =>
            have hmem2 : h.mem (v + b.size) = encHdr b2 := by
              rw [seg_cons_iff] at hrest'
              exact hrest'.1
            have h82 : b2.size.tmod 8 = 0 := by
              rw [seg_cons_iff] at hrest'
              exact hrest'.2.1
            have hbs2 : 8 ≤ b2.size := by
              rw [seg_cons_iff] at hrest'
              exact hrest'.2.2.1
            cases hA2 : b2.alloc with
            | true =>
              have hnextodd : (h.mem (v + b.size)).tmod 2 = 1 := by
                rw [hmem2, encHdr_tmod_two b2 h82 hbs2, hA2]
                simp
              exact coalGo_back n ih h v d0 lb b (b2 :: rest'') hlen' hpre hA
                hP hlballoc hfootval hnextodd
            | false =>
              exact coalGo_fwd_back n ih h v d0 lb b b2 rest'' hlen' hpre hA
                hP hA2 hlballoc hfootval

theorem coalesceLoop_mono :
    ∀ (fuel : Nat) (h : Heap) (cur : Int) (r : Heap),
      coalesceLoop fuel h cur = some r →
      coalesceLoop (fuel + 1) h cur = some r := by
  intro fuel
  induction fuel with
  | zero => intro h cur r hr; simp [coalesceLoop] at hr
  | succ fuel ih =>
    intro h cur r hr
    rw [coalesceLoop] at hr
    rw [coalesceLoop]
    split at hr
    · rename_i hone
      simp only [if_pos hone]
      exact hr
    · rename_i hone
      simp only [if_neg hone]
      split at hr
      · rename_i heven
        simp only [if_pos heven]
        exact ih _ _ r hr
      · rename_i heven
        simp only [if_neg heven]
        exact ih _ _ r hr

theorem coalesceLoop_le (f f' : Nat) (hle : f ≤ f') :
    ∀ (h : Heap) (cur : Int) (r : Heap), coalesceLoop f h cur = some r →
      coalesceLoop f' h cur = some r := by
  induction f' with
  | zero =>
    intro h cur r hr
    have : f = 0 := by omega
    subst this
    simp [coalesceLoop] at hr
  | succ f' ih =>
    intro h cur r hr
    by_cases hf : f = f' + 1
    · subst hf; exact hr
    · exact coalesceLoop_mono f' h cur r (ih (by omega) h cur r hr)

theorem coalesceLoop_det (f f' : Nat) (h : Heap) (cur : Int) (r r' : Heap)
    (h1 : coalesceLoop f h cur = some r)
    (h2 : coalesceLoop f' h cur = some r') : r = r' := by
  have e1 := coalesceLoop_le f (f + f') (by omega) h cur r h1
  have e2 := coalesceLoop_le f' (f + f') (by omega) h cur r' h2
  rw [e1] at e2
  exact Option.some.inj e2

/-- A full coalescing pass from a well-formed heap terminates and yields a
well-formed heap whose chain has no two address-adjacent free blocks. -/
theorem coalesce_wf (h : Heap) (hinv : HeapInv h) :
    ∃ (f : Nat) (h' : Heap), coalesce f h = some h' ∧ HeapInv h' ∧
      h'.base = h.base ∧ h'.allocsize = h.allocsize ∧
      ∃ bs, chainB h' 0 bs = true ∧ noAdjFree bs = true := by
  obtain ⟨hb4, hb0, hA0, hA8, bs, hchain, hpok, heven⟩ := hinv
  have hparts := chainB_parts h bs hchain
  have hpre : coalPre h 0 [] bs := by
    refine ⟨by simp [seg], hparts.1, hparts.2, by simpa using hpok,
      rfl, le_refl 0, dvd_zero 8, ?_, by simpa using heven, ?_⟩
    · rw [Int.dvd_iff_emod_eq_zero, ← tmod_eight_emod h.allocsize hA0]
      exact hA8
    · intro hcon
      simp [endAl] at hcon
  obtain ⟨f, h', done', hloop, hchain', hpok', hnadj', heven', hbase,
    halsz⟩ := coalesceGo bs.length bs h 0 [] le_rfl hpre
  refine ⟨f, h', hloop, ?_, hbase, halsz, done', hchain', ?_⟩
  · exact ⟨by rw [hbase]; exact hb4, by rw [hbase]; exact hb0,
      by rw [halsz]; exact hA0, by rw [halsz]; exact hA8,
      done', hchain', hpok', heven'⟩
  · rw [← noAdjFreeFrom_true]
    exact hnadj'

/-- Every state reachable through the API (with `myFree` restricted to
in-arena or failing pointers) satisfies the heap invariant. -/
theorem ReachW_inv : ∀ h : Heap, ReachW h → HeapInv h := by
  intro h hr
  induction hr with
  | init a base h8 ha hb hb0 => exact myInit_inv a base h8 ha hb hb0
  | alloc h fuel size r h' hrh hal ih =>
    cases r with
    | none =>
      rw [myAlloc_none_eq fuel h size h' hal]
      exact ih
    | some rv =>
      obtain ⟨bs, st, b, _, _, _, _, _, _, _, _, _, _, _, _, _, _, _, _,
        ⟨bs', hch', hpok', heven', hbase, halsz⟩, _⟩ :=
        myAlloc_success fuel h size rv h' ih hal
      exact ⟨by rw [hbase]; exact ih.1, by rw [hbase]; exact ih.2.1,
        by rw [halsz]; exact ih.2.2.1, by rw [halsz]; exact ih.2.2.2.1,
        bs', hch', hpok', heven'⟩
  | free h ptr hrh hside ih =>
    rcases myFree_wf h ptr ih hside with heq | ⟨_, hinv', _⟩
    · rw [heq]
      exact ih
    · exact hinv'
  | coal h fuel h' hrh hco ih =>
    obtain ⟨f, h2, hc, hinv2, _, _, _⟩ := coalesce_wf h ih
    have : h' = h2 := coalesceLoop_det fuel f h 0 h' h2 hco hc
    rw [this]
    exact hinv2

/-! ## Divergence of `coalesce` after an out-of-bounds `myFree`

`myFree` checks only the lower bound of its argument (myHeap.c:178), so the
pointer `base + allocsize + 4` passes validation, its implied header being
the end mark itself.  The "free" then turns the end mark `1` into `-2`
(decrement, then the p-bit clear of the "next" block, which is the same
word since the decoded size is 0).  On the next `coalesce`, the walk
reaches that word and loops on it forever: the decoded size of `-2` is
`(-2)/8*8 = 0`, so `currentBlock` never advances. -/

theorem coal_stuck_step (f : Nat) (h : Heap) (v : Int) (hm : h.mem v = -2) :
    coalesceLoop (f + 1) h v =
      coalesceLoop f (wrH (wrH h v (-2)) (v - 4) 0) v := by
  have htd : ((-2 : Int).tdiv 8) * 8 = 0 := by decide
  have hmv : (wrH (wrH h v (-2)) (v - 4) 0).mem v = -2 := by
    rw [wrH_mem_ne _ _ _ _ (by omega), wrH_mem_eq]
  simp only [coalesceLoop, hm, htd, add_zero]
  rw [if_neg (by decide : ¬ ((-2 : Int) = 1)),
    if_pos (by decide : ((-2 : Int)).tmod 2 = 0)]
  rw [if_pos (show ((-2 : Int)).tmod 2 = 0 ∧ ((-2 : Int)) ≠ 1 from
    ⟨by decide, by decide⟩)]
  simp only [wrH_mem_eq, htd, add_zero, hmv]
  rw [if_neg (by decide : ¬ ((-2 : Int)).tmod 8 = 0)]
  simp only [hmv, htd, add_zero]

theorem coal_stuck : ∀ (f : Nat) (h : Heap) (v : Int), h.mem v = -2 →
    coalesceLoop f h v = none := by
  intro f
  induction f with
  | zero => intro h v hm; rfl
  | succ f ih =>
    intro h v hm
    rw [coal_stuck_step f h v hm]
    apply ih
    rw [wrH_mem_ne _ _ _ _ (by omega), wrH_mem_eq]

/-! ## The claims -/

/-- C1: For every heap state reachable by initialize/allocate/free —
restricted to `myFree` calls that fail or whose implied header lies inside
the arena (the code has no upper bound check, so an unrestricted free can
destroy the end mark and make `coalesce` loop forever, see
`C1_rogue_free_coalesce_diverges`) — a single call to `coalesce`
terminates and afterwards no two address-adjacent blocks in the block
chain from arena start to the end mark are both FREE. -/
theorem C1_coalesce_no_adjacent_free (h : Heap) (hr : ReachW h) :
    ∃ (f : Nat) (h' : Heap), coalesce f h = some h' ∧
      ∃ bs, chainB h' 0 bs = true ∧ noAdjFree bs = true := by
  obtain ⟨f, h', hc, _, _, _, bs, hch, hna⟩ := coalesce_wf h (ReachW_inv h hr)
  exact ⟨f, h', hc, bs, hch, hna⟩

/-- C1, witness: the hypothesis of `C1_coalesce_no_adjacent_free` holds of
the freshly initialized 4 KiB arena, and the conclusion follows by the
theorem. -/
theorem C1_coalesce_no_adjacent_free_witness :
    ReachW (myInit 4088 8196) ∧
    ∃ (f : Nat) (h' : Heap), coalesce f (myInit 4088 8196) = some h' ∧
      ∃ bs, chainB h' 0 bs = true ∧ noAdjFree bs = true :=
  have hr : ReachW (myInit 4088 8196) :=
    ReachW.init 4088 8196 (by decide) (by decide) (by decide) (by decide)
  ⟨hr, C1_coalesce_no_adjacent_free (myInit 4088 8196) hr⟩

/-- C1, counterexample to the claim as stated: from the initialized heap,
the free of `base + allocsize + 4 = 12296` passes every check of `myFree`
(its implied header is the end mark, and myHeap.c:178 checks only the
lower bound), returns 0 and turns the end mark into `-2`; the next call to
`coalesce` then never terminates, whatever the fuel: the corrupt header
decodes to block size 0, so the walk stops advancing. -/
theorem C1_rogue_free_coalesce_diverges :
    ReachF ((myFree (myInit 4096 8196) 12296).2) ∧
    ∀ f : Nat, coalesce f ((myFree (myInit 4096 8196) 12296).2) = none := by
  constructor
  · exact ReachF.free (myInit 4096 8196) 12296
      (ReachF.init 4096 8196 (by decide) (by decide) (by decide) (by decide))
  · intro f
    cases f with
    | zero => rfl
    | succ f =>
      have hstep : coalesce (f + 1) ((myFree (myInit 4096 8196) 12296).2) =
          coalesceLoop f
            (wrH (wrH ((myFree (myInit 4096 8196) 12296).2) 0 4098)
              4092 4096) 4096 := rfl
      rw [hstep]
      exact coal_stuck f _ 4096 (by decide)

/-- C2: whenever `myAlloc` succeeds on a reachable heap, the block it
selected is a FREE block of the chain whose true size is at least the
rounded block size and at most the true size of every other FREE block
large enough for the request; among equally sized candidates it is the one
at the lowest offset (the first the scan meets). -/
theorem C2_best_fit_selection (h : Heap) (fuel : Nat) (n r : Int)
    (h' : Heap) (hr : ReachW h)
    (hal : myAlloc fuel h n = some (some r, h')) :
    ∃ (bs : List Blk) (st : ScanSt) (b : Blk),
      chainB h 0 bs = true ∧ (st.block, b) ∈ offBlks 0 bs ∧
      r = h.base + st.block + 4 ∧ b.alloc = false ∧
      roundedSize n ≤ b.size ∧
      ∀ ob ∈ offBlks 0 bs, ob.2.alloc = false → roundedSize n ≤ ob.2.size →
        b.size ≤ ob.2.size ∧ (ob.2.size = b.size → st.block ≤ ob.1) := by
  obtain ⟨bs, st, b, hch, _, _, _, hmem, _, _, halloc, _, hle, _, _, hra,
    _, _, hmin, _, _⟩ := myAlloc_success fuel h n r h' (ReachW_inv h hr) hal
  exact ⟨bs, st, b, hch, hmem, hra, halloc, hle,
    fun ob hm ha hs => hmin ob hm ⟨ha, hs⟩⟩

/-- C2, witness: allocating 1 byte from the fresh arena picks the single
free block at offset 0 and returns payload address 8200. -/
theorem C2_best_fit_selection_witness :
    ReachW (myInit 4088 8196) ∧
    myAlloc 2 (myInit 4088 8196) 1 =
      some (some 8200, wrH (wrH (myInit 4088 8196) 0 11) 8 4082) ∧
    ∃ (bs : List Blk) (st : ScanSt) (b : Blk),
      chainB (myInit 4088 8196) 0 bs = true ∧
      (st.block, b) ∈ offBlks 0 bs ∧
      (8200 : Int) = (myInit 4088 8196).base + st.block + 4 ∧
      b.alloc = false ∧ roundedSize 1 ≤ b.size ∧
      ∀ ob ∈ offBlks 0 bs, ob.2.alloc = false → roundedSize 1 ≤ ob.2.size →
        b.size ≤ ob.2.size ∧ (ob.2.size = b.size → st.block ≤ ob.1) :=
  have hr : ReachW (myInit 4088 8196) :=
    ReachW.init 4088 8196 (by decide) (by decide) (by decide) (by decide)
  ⟨hr, rfl, C2_best_fit_selection (myInit 4088 8196) 2 1 8200
    (wrH (wrH (myInit 4088 8196) 0 11) 8 4082) hr rfl⟩

/-- C3: the split case of `myAlloc` does NOT write the footer the claim
describes.  Allocating 8 bytes from the fresh 4088-byte arena splits the
initial free block: the chosen block (offset 0, size 16, ALLOCATED, p-bit
preserved) and the FREE remainder header (offset 16, size 4072,
`prevAllocated = true`) match the claim, but the remainder's footer word
at offset 16 + 4072 - 4 still holds the stale value 4088 written by
`myInit`, not 4072: myHeap.c:139-146 writes no footer. -/
theorem C3_split_footer_not_written :
    myAlloc 2 (myInit 4088 8196) 8 =
      some (some 8200, wrH (wrH (myInit 4088 8196) 0 19) 16 4074) ∧
    (wrH (wrH (myInit 4088 8196) 0 19) 16 4074).mem 0 =
      encHdr ⟨16, true, true⟩ ∧
    (wrH (wrH (myInit 4088 8196) 0 19) 16 4074).mem 16 =
      encHdr ⟨4072, false, true⟩ ∧
    (wrH (wrH (myInit 4088 8196) 0 19) 16 4074).mem (16 + 4072 - 4) ≠ 4072 :=
  ⟨rfl, by decide, by decide, by decide⟩

/-- C4: the invariant "every FREE block's header size equals its footer
size" is broken by a single allocate from the fresh heap (the split case
writes no footer).  The state below is reachable (initialize a 4112-byte
arena, allocate 24 bytes), its chain parses as an ALLOCATED block of size
32 followed by a FREE block of size 4080, yet the FREE block's footer word
holds 4112, not 4080. -/
theorem C4_free_block_footer_mismatch :
    ReachW (wrH (wrH (myInit 4112 8196) 0 35) 32 4082) ∧
    chainB (wrH (wrH (myInit 4112 8196) 0 35) 32 4082) 0
      [⟨32, true, true⟩, ⟨4080, false, true⟩] = true ∧
    (wrH (wrH (myInit 4112 8196) 0 35) 32 4082).mem (32 + 4080 - 4) ≠ 4080 :=
  ⟨ReachW.alloc (myInit 4112 8196) 2 24 (some 8200) _
      (ReachW.init 4112 8196 (by decide) (by decide) (by decide) (by decide))
      rfl,
    by decide, by decide⟩

/-- C5: in every heap state reachable through the API — restricted to
`myFree` calls that fail or whose implied header lies inside the arena
(without that restriction the property fails, see
`C5_rogue_free_no_valid_chain`) — the block chain parses and every
block's `prev_allocated` bit equals the allocated bit of its
address-predecessor (the arena start counting as allocated). -/
theorem C5_prev_bit_consistency (h : Heap) (hr : ReachW h) :
    ∃ bs, chainB h 0 bs = true ∧ pOk true bs = true := by
  obtain ⟨_, _, _, _, bs, hch, hpok, _⟩ := ReachW_inv h hr
  exact ⟨bs, hch, hpok⟩

/-- C5, witness: the freshly initialized heap satisfies the hypothesis and
hence carries a chain with consistent p-bits. -/
theorem C5_prev_bit_consistency_witness :
    ReachW (myInit 4120 8196) ∧
    ∃ bs, chainB (myInit 4120 8196) 0 bs = true ∧ pOk true bs = true :=
  have hr : ReachW (myInit 4120 8196) :=
    ReachW.init 4120 8196 (by decide) (by decide) (by decide) (by decide)
  ⟨hr, C5_prev_bit_consistency (myInit 4120 8196) hr⟩

/-- C5, counterexample to the claim as stated: after the free of
`base + allocsize + 4 = 12304` — accepted because `myFree` checks no upper
bound — the heap is reachable through initialize/free, the call returned 0
(so the state is "after a free call"), yet no block list at all parses as
the chain: the end mark was turned into `-2`, so the pairwise p-bit
property cannot even be stated of this state, let alone checked after
every call. -/
theorem C5_rogue_free_no_valid_chain :
    ReachF ((myFree (myInit 4104 8196) 12304).2) ∧
    (myFree (myInit 4104 8196) 12304).1 = 0 ∧
    ∀ bs : List Blk,
      chainB ((myFree (myInit 4104 8196) 12304).2) 0 bs = false := by
  refine ⟨ReachF.free (myInit 4104 8196) 12304
      (ReachF.init 4104 8196 (by decide) (by decide) (by decide)
        (by decide)),
    by decide, ?_⟩
  intro bs
  have hm : ((myFree (myInit 4104 8196) 12304).2).mem
      ((myFree (myInit 4104 8196) 12304).2).allocsize = -2 := by decide
  simp [chainB, hm]

/-- C6: `myFree` accepts a pointer whose implied header lies at the very
end of the arena (offset `allocsize`): with the fresh 4088-byte arena and
pointer 12288 = base + allocsize + 4, the implied header offset equals
`allocsize`, which is outside the arena bounds, yet the call returns 0
instead of -1 and modifies the heap (the end mark word changes). -/
theorem C6_free_missing_upper_bound_check :
    12288 - (myInit 4088 8196).base - 4 = (myInit 4088 8196).allocsize ∧
    (myFree (myInit 4088 8196) 12288).1 = 0 ∧
    (myFree (myInit 4088 8196) 12288).2.mem 4088 ≠
      (myInit 4088 8196).mem 4088 :=
  ⟨by decide, by decide, by decide⟩

/-- C7: on a reachable heap and an in-arena pointer, every failing call to
`myFree` (it returns -1) leaves every byte of the heap unchanged, and
after a successful free of the same pointer a second free fails with -1
and changes nothing — so the block's header after the second call equals
its header after the first.  (The claim's list of failure classes is
amended: a pointer whose implied header lies at or past the arena's end is
NOT rejected, see `C7_out_of_range_free_does_not_fail`.) -/
theorem C7_free_failure_frame (h : Heap) (ptr : Int) (hr : ReachW h)
    (hin : ptr - h.base - 4 < h.allocsize) :
    ((myFree h ptr).1 = -1 → (myFree h ptr).2 = h) ∧
    ((myFree h ptr).1 = 0 →
      myFree (myFree h ptr).2 ptr = (-1, (myFree h ptr).2)) := by
  constructor
  · intro h1
    rcases myFree_res h ptr with he | he
    · rw [he]
    · rw [he] at h1
      exact absurd h1 (by decide)
  · intro h0
    rcases myFree_wf h ptr (ReachW_inv h hr) (Or.inl hin) with
      he | ⟨_, _, hbase, _, htm⟩
    · rw [he] at h0
      simp at h0
    · exact myFree_not_alloc (myFree h ptr).2 ptr (by rw [hbase]; omega)

/-- C7, witness: after allocating 16 bytes from the fresh arena, pointer
8200 is in range; the first free succeeds and the second free of the same
address fails with -1 leaving the heap exactly as after the first. -/
theorem C7_free_failure_frame_witness :
    ReachW (wrH (wrH (myInit 4088 8196) 0 27) 24 4066) ∧
    8200 - (wrH (wrH (myInit 4088 8196) 0 27) 24 4066).base - 4 <
      (wrH (wrH (myInit 4088 8196) 0 27) 24 4066).allocsize ∧
    (((myFree (wrH (wrH (myInit 4088 8196) 0 27) 24 4066) 8200).1 = -1 →
      (myFree (wrH (wrH (myInit 4088 8196) 0 27) 24 4066) 8200).2 =
        wrH (wrH (myInit 4088 8196) 0 27) 24 4066) ∧
     ((myFree (wrH (wrH (myInit 4088 8196) 0 27) 24 4066) 8200).1 = 0 →
      myFree (myFree (wrH (wrH (myInit 4088 8196) 0 27) 24 4066) 8200).2
          8200 =
        (-1,
          (myFree (wrH (wrH (myInit 4088 8196) 0 27) 24 4066) 8200).2))) :=
  have hr : ReachW (wrH (wrH (myInit 4088 8196) 0 27) 24 4066) :=
    ReachW.alloc (myInit 4088 8196) 2 16 (some 8200) _
      (ReachW.init 4088 8196 (by decide) (by decide) (by decide)
        (by decide)) rfl
  ⟨hr, by decide,
    C7_free_failure_frame (wrH (wrH (myInit 4088 8196) 0 27) 24 4066) 8200
      hr (by decide)⟩

/-- C7, counterexample to the claim as stated: pointer
16384 = base + allocsize + 4 on the fresh 8184-byte arena is out of range
(its implied header offset equals `allocsize`), so by the claim the call
should fail with -1 and change nothing; instead `myFree` does not return
-1 and the end-mark word of the heap changes. -/
theorem C7_out_of_range_free_does_not_fail :
    16384 - (myInit 8184 8196).base - 4 = (myInit 8184 8196).allocsize ∧
    (myFree (myInit 8184 8196) 16384).1 ≠ -1 ∧
    (myFree (myInit 8184 8196) 16384).2.mem 8184 ≠
      (myInit 8184 8196).mem 8184 :=
  ⟨by decide, by decide, by decide⟩

/-- C8: on every reachable heap, a successful `myAlloc` returns a payload
address that is a multiple of 8: `heapStart` sits at 4 modulo 8, the
selected header offset is a multiple of 8, and the payload is the header
address plus 4. -/
theorem C8_payload_address_aligned (h : Heap) (fuel : Nat) (n r : Int)
    (h' : Heap) (hr : ReachW h)
    (hal : myAlloc fuel h n = some (some r, h')) : r % 8 = 0 := by
  have hinv := ReachW_inv h hr
  obtain ⟨bs, st, b, _, _, _, _, _, _, _, _, _, _, _, _, hra, h0st, hdvd,
    _, _, _⟩ := myAlloc_success fuel h n r h' hinv hal
  have hb4 := hinv.1
  rw [hra]
  omega

/-- C8, witness: allocating 5 bytes from the fresh 4128-byte arena returns
8200, a multiple of 8. -/
theorem C8_payload_address_aligned_witness :
    ReachW (myInit 4128 8196) ∧
    myAlloc 2 (myInit 4128 8196) 5 =
      some (some 8200, wrH (wrH (myInit 4128 8196) 0 19) 16 4114) ∧
    (8200 : Int) % 8 = 0 :=
  have hr : ReachW (myInit 4128 8196) :=
    ReachW.init 4128 8196 (by decide) (by decide) (by decide) (by decide)
  ⟨hr, rfl, C8_payload_address_aligned (myInit 4128 8196) 2 5 8200
    (wrH (wrH (myInit 4128 8196) 0 19) 16 4114) hr rfl⟩

/-- C9: whenever `myAlloc` returns NULL — non-positive request, rounded
size larger than the arena, or no sufficiently large FREE block — the heap
after the call is exactly the heap before it: the scan writes nothing. -/
theorem C9_failed_alloc_leaves_heap_unchanged (fuel : Nat) (h : Heap)
    (n : Int) (h' : Heap) (hal : myAlloc fuel h n = some (none, h')) :
    h' = h :=
  myAlloc_none_eq fuel h n h' hal

/-- C9, witness: requesting 5000 bytes from the 4136-byte arena fails
(the rounded size exceeds the arena) and the heap is unchanged. -/
theorem C9_failed_alloc_leaves_heap_unchanged_witness :
    myAlloc 1 (myInit 4136 8196) 5000 = some (none, myInit 4136 8196) ∧
    myInit 4136 8196 = myInit 4136 8196 :=
  ⟨rfl, C9_failed_alloc_leaves_heap_unchanged 1 (myInit 4136 8196) 5000
    (myInit 4136 8196) rfl⟩

/-- C10: a successful `myAlloc` on a reachable heap never creates a
sub-header-size sliver: it splits exactly when the best-fit block is
strictly larger than the rounded size, and then the FREE remainder has
size `foundSize - blockSize`, at least 8 and a multiple of 8 (both sizes
being multiples of 8); otherwise the block size equals the rounded size
and the block is allocated whole. -/
theorem C10_split_no_sliver (h : Heap) (fuel : Nat) (n r : Int)
    (h' : Heap) (hr : ReachW h)
    (hal : myAlloc fuel h n = some (some r, h')) :
    ∃ (bs : List Blk) (st : ScanSt) (b : Blk),
      chainB h 0 bs = true ∧ (st.block, b) ∈ offBlks 0 bs ∧
      b.alloc = false ∧ roundedSize n ≤ b.size ∧
      (roundedSize n).tmod 8 = 0 ∧ b.size.tmod 8 = 0 ∧
      ((roundedSize n < b.size ∧
          8 ≤ b.size - roundedSize n ∧
          (b.size - roundedSize n).tmod 8 = 0 ∧
          h' = wrH (wrH h st.block
              (roundedSize n + (if b.prev then 2 else 0) + 1))
            (st.block + roundedSize n) (b.size - roundedSize n + 2)) ∨
        b.size = roundedSize n) := by
  obtain ⟨bs, st, b, hch, _, _, _, hmem, _, _, halloc, hn, hle, h8, hbs,
    _, _, _, _, _, hcase⟩ :=
    myAlloc_success fuel h n r h' (ReachW_inv h hr) hal
  have hs8 := roundedSize_tmod n hn
  have hsge := roundedSize_ge n hn
  have hrem8 : (b.size - roundedSize n).tmod 8 = 0 := by
    rw [Int.tmod_eq_emod (by omega) (by omega)]
    rw [Int.tmod_eq_emod (by omega) (by omega)] at h8
    rw [Int.tmod_eq_emod (by omega) (by omega)] at hs8
    omega
  refine ⟨bs, st, b, hch, hmem, halloc, hle, hs8, h8, ?_⟩
  rcases hcase with ⟨hlt, hH⟩ | ⟨heq, _⟩
  · refine Or.inl ⟨hlt, ?_, hrem8, hH⟩
    rw [Int.tmod_eq_emod (by omega) (by omega)] at hrem8
    omega
  · exact Or.inr heq

/-- C10, witness: allocating 12 bytes from the fresh 4144-byte arena
splits the single free block; the remainder has size 4128 = 4144 - 16. -/
theorem C10_split_no_sliver_witness :
    ReachW (myInit 4144 8196) ∧
    myAlloc 2 (myInit 4144 8196) 12 =
      some (some 8200, wrH (wrH (myInit 4144 8196) 0 19) 16 4130) ∧
    ∃ (bs : List Blk) (st : ScanSt) (b : Blk),
      chainB (myInit 4144 8196) 0 bs = true ∧
      (st.block, b) ∈ offBlks 0 bs ∧
      b.alloc = false ∧ roundedSize 12 ≤ b.size ∧
      (roundedSize 12).tmod 8 = 0 ∧ b.size.tmod 8 = 0 ∧
      ((roundedSize 12 < b.size ∧
          8 ≤ b.size - roundedSize 12 ∧
          (b.size - roundedSize 12).tmod 8 = 0 ∧
          wrH (wrH (myInit 4144 8196) 0 19) 16 4130 =
            wrH (wrH (myInit 4144 8196) st.block
                (roundedSize 12 + (if b.prev then 2 else 0) + 1))
              (st.block + roundedSize 12) (b.size - roundedSize 12 + 2)) ∨
        b.size = roundedSize 12) :=
  have hr : ReachW (myInit 4144 8196) :=
    ReachW.init 4144 8196 (by decide) (by decide) (by decide) (by decide)
  ⟨hr, rfl, C10_split_no_sliver (myInit 4144 8196) 2 12 8200
    (wrH (wrH (myInit 4144 8196) 0 19) 16 4130) hr rfl⟩
